import Mathlib

/-!
Verification of the route-conversion script (`complete-conversion.py`).

The script has three parts:
* `convert_route_to_async` — a pipeline of seven `re.sub` calls rewriting
  synchronous SQLite calls into awaited PostgreSQL calls;
* a reporter in `main` counting route-registration patterns with `re.findall`;
* the driver `main` itself: one file read, a printed report, `sys.exit(1)`
  on a missing file, and an unguarded division by the total route count.

Texts are embedded as `List Char`.  Each regular expression of the source is
embedded as an executable matcher that mirrors the (deterministic) backtracking
behaviour of the Python pattern on its text class, and `re.sub` / `re.findall`
are embedded as fuelled left-to-right non-overlapping scanners (`runSub`,
`countMatches`).  Python's `\s` and `\w` are modelled by their ASCII parts
(`isPySpace`, `isWordChar`); `.` does not match a newline, exactly as in
Python without `re.DOTALL`.
-/

namespace GSC

/-- ASCII part of Python's `\s` class: space, tab, newline, carriage return,
vertical tab, form feed. -/
def isPySpace (c : Char) : Bool :=
  c = ' ' || c = '\t' || c = '\n' || c = '\r' || c = Char.ofNat 11 || c = Char.ofNat 12

/-- ASCII part of Python's `\w` class: letters, digits, underscore. -/
def isWordChar (c : Char) : Bool :=
  c.isAlphanum || c = '_'

/-- Strip the literal `p` from the front of `l`; `some` of the rest on success.
This is matching a literal piece of a regular expression. -/
def peel : List Char → List Char → Option (List Char)
  | [], l => some l
  | _ :: _, [] => none
  | p :: ps, c :: cs => if p = c then peel ps cs else none

/-- Matcher for `([^s]*)s` for a stop character `s`: capture everything up to
the first occurrence of `s`, then consume `s`.  `none` when `s` does not occur. -/
def grabTo (stop : Char) : List Char → Option (List Char × List Char)
  | [] => none
  | c :: cs =>
    if c = stop then some ([], cs)
    else
      match grabTo stop cs with
      | some (g, r) => some (c :: g, r)
      | none => none

/-- Matcher for `[^,]+,`: at least one non-comma character, up to and including
the first comma. -/
def takeToComma (l : List Char) : Option (List Char) :=
  match l with
  | [] => none
  | c :: cs =>
    if c = ',' then none
    else
      match grabTo ',' cs with
      | some (_, r) => some r
      | none => none

/-- Matcher for the non-greedy `.*?tgt` (with `.` not matching a newline):
scan forward; at each position first try the literal `tgt`, stop with `none`
at a newline or at the end of the text. -/
def searchTgt (tgt : List Char) : List Char → Option (List Char)
  | [] => none
  | c :: cs =>
    match peel tgt (c :: cs) with
    | some r => some r
    | none => if c = '\n' then none else searchTgt tgt cs

/-! ### The seven substitution rules of `convert_route_to_async`

Each matcher takes the text at a candidate position and returns
`some (instantiated replacement, rest of the text after the match)`,
or `none` when the pattern does not match at this position. -/

/-- Shared tail of rule 1: after the group (with text `g`) and its closing
parenthesis, match `\s*=>` and build the replacement `async (\1) =>`. -/
def arrowTail (g s1 : List Char) : Option (List Char × List Char) :=
  match peel "=>".toList (s1.dropWhile isPySpace) with
  | none => none
  | some r => some ("async (".toList ++ g ++ ") =>".toList, r)

/-- Rule 1, `\((req, res(?:, next)?)\)\s*=>` ↦ `async (\1) =>`.
The two group alternatives continue with distinct characters (`,` vs `)`),
so the greedy optional `(?:, next)?` needs no further backtracking. -/
def matchArrow (l : List Char) : Option (List Char × List Char) :=
  match peel "(req, res".toList l with
  | none => none
  | some s0 =>
    match peel ", next)".toList s0 with
    | some s1 => arrowTail "req, res, next".toList s1
    | none =>
      match peel ")".toList s0 with
      | some s1 => arrowTail "req, res".toList s1
      | none => none

/-- Rule 2, `function\s*\((req, res(?:, next)?)\)` ↦ `async function (\1)`. -/
def matchFunc (l : List Char) : Option (List Char × List Char) :=
  match peel "function".toList l with
  | none => none
  | some s0 =>
    match peel "(req, res".toList (s0.dropWhile isPySpace) with
    | none => none
    | some s1 =>
      match peel ", next)".toList s1 with
      | some r => some ("async function (req, res, next)".toList, r)
      | none =>
        match peel ")".toList s1 with
        | some r => some ("async function (req, res)".toList, r)
        | none => none

/-- Rule 3, `db\.prepare\(([^)]+)\)\.get\(([^)]*)\)` ↦ `await db.getOne(\1, [\2])`. -/
def matchGet (l : List Char) : Option (List Char × List Char) :=
  match peel "db.prepare(".toList l with
  | none => none
  | some s0 =>
    match grabTo ')' s0 with
    | none => none
    | some (g1, s1) =>
      if g1 = [] then none
      else
        match peel ".get(".toList s1 with
        | none => none
        | some s2 =>
          match grabTo ')' s2 with
          | none => none
          | some (g2, s3) =>
            some ("await db.getOne(".toList ++ g1 ++ ", [".toList ++ g2 ++ "])".toList, s3)

/-- Rule 4, `db\.prepare\(([^)]+)\)\.all\(([^)]*)\)` ↦ `await db.getAll(\1, [\2])`. -/
def matchAll (l : List Char) : Option (List Char × List Char) :=
  match peel "db.prepare(".toList l with
  | none => none
  | some s0 =>
    match grabTo ')' s0 with
    | none => none
    | some (g1, s1) =>
      if g1 = [] then none
      else
        match peel ".all(".toList s1 with
        | none => none
        | some s2 =>
          match grabTo ')' s2 with
          | none => none
          | some (g2, s3) =>
            some ("await db.getAll(".toList ++ g1 ++ ", [".toList ++ g2 ++ "])".toList, s3)

/-- Rule 5, `const\s+(\w+)\s*=\s*db\.prepare\(([^)]+)\);\s*\1\.run\(([^)]*)\)`
↦ `await db.run(\2, [\3])`.  `\s`/`\w` are disjoint, so each greedy
`\s+`/`\w+`/`\s*` is equivalent to its maximal munch. -/
def matchRun1 (l : List Char) : Option (List Char × List Char) :=
  match peel "const".toList l with
  | none => none
  | some s0 =>
    if s0.takeWhile isPySpace = [] then none
    else
      let s1 := s0.dropWhile isPySpace
      let name := s1.takeWhile isWordChar
      if name = [] then none
      else
          match peel "=".toList ((s1.dropWhile isWordChar).dropWhile isPySpace) with
          | none => none
          | some s3 =>
            match peel "db.prepare(".toList (s3.dropWhile isPySpace) with
            | none => none
            | some s4 =>
              match grabTo ')' s4 with
              | none => none
              | some (g2, s5) =>
                if g2 = [] then none
                else
                  match peel ";".toList s5 with
                  | none => none
                  | some s6 =>
                    match peel name (s6.dropWhile isPySpace) with
                    | none => none
                    | some s7 =>
                      match peel ".run(".toList s7 with
                      | none => none
                      | some s8 =>
                        match grabTo ')' s8 with
                        | none => none
                        | some (g3, s9) =>
                          some ("await db.run(".toList ++ g2 ++ ", [".toList ++ g3
                            ++ "])".toList, s9)

/-- Rule 6, `db\.prepare\(([^)]+)\)\.run\(([^)]*)\)` ↦ `await db.run(\1, [\2])`. -/
def matchRun2 (l : List Char) : Option (List Char × List Char) :=
  match peel "db.prepare(".toList l with
  | none => none
  | some s0 =>
    match grabTo ')' s0 with
    | none => none
    | some (g1, s1) =>
      if g1 = [] then none
      else
        match peel ".run(".toList s1 with
        | none => none
        | some s2 =>
          match grabTo ')' s2 with
          | none => none
          | some (g2, s3) =>
            some ("await db.run(".toList ++ g1 ++ ", [".toList ++ g2 ++ "])".toList, s3)

/-- Rule 7, `result\.changes` ↦ `result.rowCount` (a literal replacement). -/
def matchChanges (l : List Char) : Option (List Char × List Char) :=
  match peel "result.changes".toList l with
  | none => none
  | some r => some ("result.rowCount".toList, r)

/-- Fuelled body of `re.sub`: scan left to right, at each position try the
matcher; on a match emit the instantiated replacement and continue after the
match, otherwise copy one character.  Every matcher of this file consumes at
least one character, so fuel `= length` suffices. -/
def subF (m : List Char → Option (List Char × List Char)) : Nat → List Char → List Char
  | 0, l => l
  | _ + 1, [] => []
  | n + 1, c :: cs =>
    match m (c :: cs) with
    | some (rep, rest) => rep ++ subF m n rest
    | none => c :: subF m n cs

/-- `re.sub` with pattern-matcher `m`: leftmost, non-overlapping, single pass. -/
def runSub (m : List Char → Option (List Char × List Char)) (l : List Char) : List Char :=
  subF m l.length l

/-- `convert_route_to_async` from the source: the seven `re.sub` calls in
their declared order (arrow handlers, function handlers, `.get`, `.all`,
`const …; ….run`, inline `.run`, `result.changes`). -/
def convert_route_to_async (route_content : List Char) : List Char :=
  runSub matchChanges
    (runSub matchRun2
      (runSub matchRun1
        (runSub matchAll
          (runSub matchGet
            (runSub matchFunc
              (runSub matchArrow route_content))))))

/-! ### The reporter of `main` -/

/-- `app\.(get|post|put|delete)\(`: the four verb alternatives are tried in
order; at most one of the four literals can match at a position, and if the
verb matches but `\(` fails no other alternative can succeed. -/
def stripHdr (l : List Char) : Option (List Char) :=
  match peel "app.get(".toList l with
  | some r => some r
  | none =>
    match peel "app.post(".toList l with
    | some r => some r
    | none =>
      match peel "app.put(".toList l with
      | some r => some r
      | none => peel "app.delete(".toList l

/-- Matcher for `app\.(get|post|put|delete)\([^,]+,.*?tgt` (the whole reporter
pattern, with `tgt` the tail literal). -/
def matchRoute (tgt : List Char) (l : List Char) : Option (List Char) :=
  match stripHdr l with
  | none => none
  | some s0 =>
    match takeToComma s0 with
    | none => none
    | some s1 => searchTgt tgt s1

/-- Fuelled body of `len(re.findall ...)`: count leftmost non-overlapping
matches. -/
def cntF (m : List Char → Option (List Char)) : Nat → List Char → Nat
  | 0, _ => 0
  | _ + 1, [] => 0
  | n + 1, c :: cs =>
    match m (c :: cs) with
    | some rest => cntF m n rest + 1
    | none => cntF m n cs

/-- `len(re.findall(pattern, content))` with pattern-matcher `m`. -/
def countMatches (m : List Char → Option (List Char)) (l : List Char) : Nat :=
  cntF m l.length l

/-- Tail literal of the all-routes pattern: `\(req, res`. -/
def tgtAllRoutes : List Char := "(req, res".toList

/-- Tail literal of the converted-routes pattern: `async \(req, res`. -/
def tgtAsyncRoutes : List Char := "async (req, res".toList

/-- `all_routes` of `main`. -/
def allRoutesCount (content : List Char) : Nat :=
  countMatches (matchRoute tgtAllRoutes) content

/-- `async_routes` of `main`. -/
def asyncRoutesCount (content : List Char) : Nat :=
  countMatches (matchRoute tgtAsyncRoutes) content

/-! ### The driver `main` -/

/-- Outcome of one run of the script.
* `fileNotFound msg`: the `except FileNotFoundError` branch — `msg` printed,
  then `sys.exit(1)`.
* `report total conv remaining percent`: normal completion (exit code 0); the
  four numbers printed by the summary (`remaining` is Python's `total - conv`
  over unbounded integers, `percent` is `conv * 100 // total`).
* `zeroDivisionError`: the f-string `async_routes*100//all_routes` raised an
  uncaught `ZeroDivisionError`; abnormal termination, not a normal exit. -/
inductive RunResult where
  | fileNotFound (msg : List Char)
  | report (total conv : Nat) (remaining : Int) (percent : Nat)
  | zeroDivisionError
  deriving DecidableEq

/-- Process exit code of an outcome: `1` from `sys.exit(1)`, `0` on normal
completion, `none` (no normal exit) for the uncaught exception. -/
def RunResult.exitCode : RunResult → Option Nat
  | .fileNotFound _ => some 1
  | .report _ _ _ _ => some 0
  | .zeroDivisionError => none

/-- The fixed path the driver reads; the only filesystem access of the script,
and the script never writes any file. -/
def targetPath : List Char := "/data/ASM/server.js".toList

/-- The driver, parameterised by the rewriter in scope (`main` defines
`convert_route_to_async` above it but never calls it, so the parameter is
unused).
`file` is the outcome of reading `targetPath`: `none` = `FileNotFoundError`.
Python's `//` raises `ZeroDivisionError` when `all_routes = 0`; on
`total ≠ 0` the counts are non-negative, so floor division is `Nat` division. -/
def runMainWith (_rewriter : List Char → List Char) (file : Option (List Char)) : RunResult :=
  match file with
  | none => .fileNotFound "ERROR: server.js not found!".toList
  | some content =>
    let total := allRoutesCount content
    let conv := asyncRoutesCount content
    if total = 0 then .zeroDivisionError
    else .report total conv ((total : Int) - (conv : Int)) (conv * 100 / total)

/-- `main` of the source. -/
def runMain (file : Option (List Char)) : RunResult :=
  runMainWith convert_route_to_async file

/-- The filesystem reads of one run of `main`: the single read of the fixed
target path. -/
def mainReads : List (List Char) := [targetPath]

/-- The filesystem writes of one run of `main`: none — the driver never
persists the rewriter's output. -/
def mainWrites : List (List Char) := []

/-! ## Generic facts about the matcher building blocks -/

theorem peel_eq : ∀ {p l r : List Char}, peel p l = some r ↔ l = p ++ r := by
  intro p
  induction p with
  | nil => intro l r; simp [peel]
  | cons a p ih =>
    intro l r
    cases l with
    | nil => simp [peel]
    | cons c cs =>
      by_cases h : a = c
      · subst h; simp [peel, ih]
      · simp [peel, h, Ne.symm h]

theorem peel_self_append (p t : List Char) : peel p (p ++ t) = some t :=
  peel_eq.mpr rfl

theorem grabTo_eq {stop : Char} :
    ∀ {l g r : List Char}, grabTo stop l = some (g, r) →
      l = g ++ stop :: r ∧ stop ∉ g := by
  intro l
  induction l with
  | nil => intro g r h; simp [grabTo] at h
  | cons c cs ih =>
    intro g r h
    by_cases hc : c = stop
    · subst hc
      simp [grabTo] at h
      simp [h.1, h.2]
    · simp only [grabTo, if_neg hc] at h
      cases hg : grabTo stop cs with
      | none => rw [hg] at h; simp at h
      | some x =>
        rw [hg] at h
        obtain ⟨g', r'⟩ := x
        simp at h
        obtain ⟨hgg, hrr⟩ := h
        obtain ⟨h1, h2⟩ := ih hg
        subst hgg hrr
        constructor
        · simp [h1]
        · intro hmem
          rcases List.mem_cons.mp hmem with h' | h'
          · exact hc h'.symm
          · exact h2 h'

theorem grabTo_append {stop : Char} {g : List Char} (hg : stop ∉ g) (r : List Char) :
    grabTo stop (g ++ stop :: r) = some (g, r) := by
  induction g with
  | nil => simp [grabTo]
  | cons c cs ih =>
    have hc : ¬ c = stop := fun h => hg (by simp [h])
    have hcs : stop ∉ cs := fun h => hg (by simp [h])
    simp only [List.cons_append, grabTo, if_neg hc, List.append_eq, ih hcs]

/-- Minimality of `grabTo`: it stops at the first `stop`, so any other
decomposition at a `stop` leaves a tail no longer than `grabTo`'s. -/
theorem grabTo_min {stop : Char} :
    ∀ {l g r : List Char}, grabTo stop l = some (g, r) →
      ∀ v r₀, l = v ++ stop :: r₀ → r₀.length ≤ r.length := by
  intro l
  induction l with
  | nil => intro g r h; simp [grabTo] at h
  | cons c cs ih =>
    intro g r h v r₀ hv
    by_cases hc : c = stop
    · subst hc
      simp [grabTo] at h
      cases v with
      | nil =>
        simp at hv
        have e1 := congrArg List.length hv
        have e2 := congrArg List.length h.2
        simp at e1 e2
        omega
      | cons d vs =>
        simp at hv
        have e1 := congrArg List.length hv.2
        have e2 := congrArg List.length h.2
        simp at e1 e2
        omega
    · simp only [grabTo, if_neg hc] at h
      cases hg : grabTo stop cs with
      | none => rw [hg] at h; simp at h
      | some x =>
        rw [hg] at h
        obtain ⟨g', r'⟩ := x
        simp at h
        cases v with
        | nil => simp at hv; exact absurd hv.1 hc
        | cons d vs =>
          simp at hv
          have h1 := ih hg vs r₀ hv.2
          have e2 := congrArg List.length h.2
          simp at e2
          omega

theorem takeToComma_eq {l r : List Char} (h : takeToComma l = some r) :
    ∃ w, w ≠ [] ∧ ',' ∉ w ∧ l = w ++ ',' :: r := by
  cases l with
  | nil => simp [takeToComma] at h
  | cons c cs =>
    by_cases hc : c = ','
    · simp [takeToComma, hc] at h
    · simp only [takeToComma, if_neg hc] at h
      cases hg : grabTo ',' cs with
      | none => rw [hg] at h; simp at h
      | some x =>
        rw [hg] at h
        obtain ⟨g, r'⟩ := x
        simp at h
        obtain ⟨h1, h2⟩ := grabTo_eq hg
        refine ⟨c :: g, by simp, ?_, by simp [h1, h]⟩
        intro hmem
        rcases List.mem_cons.mp hmem with h' | h'
        · exact hc h'.symm
        · exact h2 h'

theorem takeToComma_append {w : List Char} (hne : w ≠ []) (hw : ',' ∉ w) (r : List Char) :
    takeToComma (w ++ ',' :: r) = some r := by
  cases w with
  | nil => exact absurd rfl hne
  | cons c cs =>
    have hc : ¬ c = ',' := fun h => hw (by simp [h])
    have hcs : ',' ∉ cs := fun h => hw (by simp [h])
    simp only [List.cons_append, takeToComma, if_neg hc, grabTo_append hcs]

theorem takeToComma_min {l r : List Char} (h : takeToComma l = some r) :
    ∀ v r₀, l = v ++ ',' :: r₀ → r₀.length ≤ r.length := by
  intro v r₀ hv
  cases l with
  | nil => simp [takeToComma] at h
  | cons c cs =>
    by_cases hc : c = ','
    · simp [takeToComma, hc] at h
    · simp only [takeToComma, if_neg hc] at h
      cases hg : grabTo ',' cs with
      | none => rw [hg] at h; simp at h
      | some x =>
        rw [hg] at h
        obtain ⟨g, r'⟩ := x
        simp at h
        cases v with
        | nil => simp at hv; exact absurd hv.1 hc
        | cons d vs =>
          simp at hv
          have h1 := grabTo_min hg vs r₀ hv.2
          have e2 := congrArg List.length h
          simp at e2
          omega

theorem searchTgt_eq {tgt : List Char} :
    ∀ {l r : List Char}, searchTgt tgt l = some r →
      ∃ w, '\n' ∉ w ∧ l = w ++ tgt ++ r := by
  intro l
  induction l with
  | nil => intro r h; simp [searchTgt] at h
  | cons c cs ih =>
    intro r h
    simp only [searchTgt] at h
    cases hp : peel tgt (c :: cs) with
    | some r' =>
      rw [hp] at h
      simp at h
      exact ⟨[], by simp, by simpa [← h] using peel_eq.mp hp⟩
    | none =>
      rw [hp] at h
      by_cases hc : c = '\n'
      · simp [hc] at h
      · simp only [if_neg hc] at h
        obtain ⟨w, hw1, hw2⟩ := ih h
        refine ⟨c :: w, ?_, by simp [hw2]⟩
        intro hmem
        rcases List.mem_cons.mp hmem with h' | h'
        · exact hc h'.symm
        · exact hw1 h'

/-- Minimality of the non-greedy search: it stops at the first occurrence of
`tgt`, so any decomposition at an occurrence has a tail no longer than the
match's. -/
theorem searchTgt_min {tgt : List Char} :
    ∀ {l r : List Char}, searchTgt tgt l = some r →
      ∀ v r₀, l = v ++ tgt ++ r₀ → r₀.length ≤ r.length := by
  intro l
  induction l with
  | nil => intro r h; simp [searchTgt] at h
  | cons c cs ih =>
    intro r h v r₀ hv
    simp only [searchTgt] at h
    cases hp : peel tgt (c :: cs) with
    | some r' =>
      rw [hp] at h
      simp at h
      have h1 : c :: cs = tgt ++ r' := peel_eq.mp hp
      have e1 := congrArg List.length h1
      have e2 := congrArg List.length hv
      have e3 := congrArg List.length h
      simp at e1 e2 e3
      omega
    | none =>
      rw [hp] at h
      by_cases hc : c = '\n'
      · simp [hc] at h
      · simp only [if_neg hc] at h
        cases v with
        | nil =>
          exfalso
          simp at hv
          rw [hv, peel_self_append] at hp
          exact Option.noConfusion hp
        | cons d vs =>
          simp at hv
          exact ih h vs r₀ (by rw [List.append_assoc]; exact hv.2)

/-- Unfolding of `searchTgt` at a cons cell. -/
theorem searchTgt_cons (tgt : List Char) (c : Char) (cs : List Char) :
    searchTgt tgt (c :: cs) =
      match peel tgt (c :: cs) with
      | some r => some r
      | none => if c = '\n' then none else searchTgt tgt cs := rfl

/-- `searchTgt` succeeds immediately on an immediate (non-empty) match. -/
theorem searchTgt_peel {tgt l r : List Char} (hne : tgt ≠ []) (hp : peel tgt l = some r) :
    searchTgt tgt l = some r := by
  have hl : l = tgt ++ r := peel_eq.mp hp
  cases l with
  | nil =>
    exfalso
    cases tgt with
    | nil => exact hne rfl
    | cons a ts => simp at hl
  | cons c cs => rw [searchTgt_cons, hp]

/-- Completeness of the search: an occurrence of a non-empty `tgt` behind a
newline-free prefix is found (possibly earlier). -/
theorem searchTgt_of_split {tgt : List Char} (hne : tgt ≠ []) :
    ∀ {w : List Char}, '\n' ∉ w → ∀ r : List Char,
      ∃ r', searchTgt tgt (w ++ (tgt ++ r)) = some r' ∧ r.length ≤ r'.length := by
  intro w
  induction w with
  | nil =>
    intro _ r
    exact ⟨r, by simpa using searchTgt_peel hne (peel_self_append tgt r), le_refl _⟩
  | cons c w' ih =>
    intro hc r
    have hc1 : ¬ c = '\n' := fun h => hc (by simp [h])
    have hc2 : '\n' ∉ w' := fun h => hc (by simp [h])
    obtain ⟨r', hr', hlen⟩ := ih hc2 r
    have hstep : (c :: w') ++ (tgt ++ r) = c :: (w' ++ (tgt ++ r)) := by simp
    cases hp : peel tgt (c :: (w' ++ (tgt ++ r))) with
    | some r'' =>
      refine ⟨r'', ?_, ?_⟩
      · rw [hstep, searchTgt_cons, hp]
      · have e1 := congrArg List.length (peel_eq.mp hp)
        simp at e1
        omega
    | none =>
      refine ⟨r', ?_, hlen⟩
      rw [hstep, searchTgt_cons, hp]
      simpa [hc1] using hr'

/-! ## Marker decompositions and substring occurrences -/

/-- Splitting at an occurrence of a marker character `m`: a decomposition of
`v1 ++ m :: rest` at some occurrence of `m`, where `m ∉ v1`, either is the
split at `v1`'s marker or refines `rest`. -/
theorem marker_split {m : Char} :
    ∀ (v1 : List Char) {pre post rest : List Char}, m ∉ v1 →
      pre ++ m :: post = v1 ++ m :: rest →
      (pre = v1 ∧ post = rest) ∨
        ∃ pre', pre = v1 ++ m :: pre' ∧ pre' ++ m :: post = rest := by
  intro v1
  induction v1 with
  | nil =>
    intro pre post rest _ h
    cases pre with
    | nil => left; simpa using h
    | cons c pre' =>
      right
      simp at h
      exact ⟨pre', by simp [h.1], h.2⟩
  | cons a v1' ih =>
    intro pre post rest hm h
    cases pre with
    | nil =>
      exfalso
      simp at h
      exact hm (by simp [h.1])
    | cons c pre' =>
      simp at h
      have hm' : m ∉ v1' := fun hx => hm (by simp [hx])
      rcases ih hm' h.2 with ⟨h1, h2⟩ | ⟨q, hq1, hq2⟩
      · exact Or.inl ⟨by simp [h.1, h1], h2⟩
      · exact Or.inr ⟨q, by simp [h.1, hq1], hq2⟩

/-- A text with exactly one occurrence of the marker decomposes at it in only
one way. -/
theorem marker_one {m : Char} {v1 v2 pre post : List Char}
    (h1 : m ∉ v1) (h2 : m ∉ v2)
    (h : pre ++ m :: post = v1 ++ m :: v2) : pre = v1 ∧ post = v2 := by
  rcases marker_split v1 h1 h with h' | ⟨q, _, hq2⟩
  · exact h'
  · exfalso
    apply h2
    rw [← hq2]
    simp

/-- A text with exactly two occurrences of the marker decomposes at one of
the two. -/
theorem marker_two {m : Char} {v1 v2 v3 pre post : List Char}
    (h1 : m ∉ v1) (h2 : m ∉ v2) (h3 : m ∉ v3)
    (h : pre ++ m :: post = v1 ++ m :: (v2 ++ m :: v3)) :
    (pre = v1 ∧ post = v2 ++ m :: v3) ∨ (pre = v1 ++ m :: v2 ∧ post = v3) := by
  rcases marker_split v1 h1 h with h' | ⟨q, hq1, hq2⟩
  · exact Or.inl h'
  · rcases marker_one h2 h3 hq2 with ⟨e1, e2⟩
    exact Or.inr ⟨by simp [hq1, e1], e2⟩

/-- `p` occurs as a contiguous substring of `l`. -/
def Occurs (p l : List Char) : Prop := ∃ u v, l = u ++ (p ++ v)

/-- Decision procedure for `Occurs`. -/
def hasSub (p : List Char) : List Char → Bool
  | [] => decide (p = [])
  | c :: cs => (peel p (c :: cs)).isSome || hasSub p cs

theorem hasSub_iff : ∀ {p l : List Char}, hasSub p l = true ↔ Occurs p l := by
  intro p l
  induction l with
  | nil =>
    constructor
    · intro h
      have hp : p = [] := by simpa [hasSub] using h
      exact ⟨[], [], by simp [hp]⟩
    · rintro ⟨u, v, huv⟩
      have := congrArg List.length huv
      simp at this
      simp [hasSub, List.length_eq_zero.mp (by omega : p.length = 0)]
  | cons c cs ih =>
    simp only [hasSub, Bool.or_eq_true, ih]
    constructor
    · rintro (h | ⟨u, v, huv⟩)
      · cases hp : peel p (c :: cs) with
        | none => rw [hp] at h; simp at h
        | some r => exact ⟨[], r, by simpa using peel_eq.mp hp⟩
      · exact ⟨c :: u, v, by simp [huv]⟩
    · rintro ⟨u, v, huv⟩
      cases u with
      | nil =>
        left
        simp at huv
        simp [show peel p (c :: cs) = some v from peel_eq.mpr (by simpa using huv)]
      | cons d us =>
        right
        simp at huv
        exact ⟨us, v, huv.2⟩

instance : ∀ p l, Decidable (Occurs p l) := fun _ _ => decidable_of_iff _ hasSub_iff

/-- An occurrence in `a ++ b` lies in `a`, lies in `b`, or straddles the
border: a non-trivial split of `p` into a suffix of `a` and a prefix of `b`. -/
theorem occurs_append {p : List Char} :
    ∀ {a b : List Char}, Occurs p (a ++ b) →
      Occurs p a ∨ Occurs p b ∨
        ∃ p1 p2, p = p1 ++ p2 ∧ p1 ≠ [] ∧ p2 ≠ [] ∧ p1 <:+ a ∧ p2 <+: b := by
  intro a
  induction a with
  | nil => intro b h; exact Or.inr (Or.inl (by simpa using h))
  | cons c a' ih =>
    intro b h
    obtain ⟨u, v, huv⟩ := h
    cases u with
    | cons d us =>
      simp at huv
      rcases ih ⟨us, v, huv.2⟩ with h' | h' | ⟨p1, p2, e, n1, n2, hs, hp⟩
      · obtain ⟨u', v', h'⟩ := h'
        exact Or.inl ⟨c :: u', v', by simp [h']⟩
      · exact Or.inr (Or.inl h')
      · exact Or.inr (Or.inr ⟨p1, p2, e, n1, n2, hs.trans (List.suffix_cons c a'), hp⟩)
    | nil =>
      simp at huv
      have huv' : (c :: a') ++ b = p ++ v := by simpa using huv
      rcases List.append_eq_append_iff.mp huv' with ⟨w, hw1, hw2⟩ | ⟨w, hw1, hw2⟩
      · -- p = (c :: a') ++ w, b = w ++ v
        cases w with
        | nil => exact Or.inl ⟨[], [], by simp [hw1]⟩
        | cons e ws =>
          refine Or.inr (Or.inr ⟨c :: a', e :: ws, by simpa using hw1, by simp, by simp,
            List.suffix_refl _, ⟨v, hw2.symm⟩⟩)
      · -- c :: a' = p ++ w
        exact Or.inl ⟨[], w, by simpa using hw1⟩

/-- Last element of a non-empty suffix. -/
theorem suffix_getLast? {s l : List Char} (h : s <:+ l) (hne : s ≠ []) :
    s.getLast? = l.getLast? := by
  obtain ⟨u, rfl⟩ := h
  exact (List.getLast?_append_of_ne_nil u hne).symm

/-- Head of a non-empty prefix. -/
theorem prefix_head? {s l : List Char} (h : s <+: l) (hne : s ≠ []) :
    s.head? = l.head? := by
  obtain ⟨u, rfl⟩ := h
  exact (List.head?_append_of_ne_nil s hne).symm

/-- Two suffixes of the same list are suffix-comparable by length. -/
theorem suffix_of_suffix_of_length_le {s t l : List Char}
    (hs : s <:+ l) (ht : t <:+ l) (h : s.length ≤ t.length) : s <:+ t := by
  obtain ⟨u, hu⟩ := hs
  obtain ⟨v, hv⟩ := ht
  have h1 : u.length + s.length = v.length + t.length := by
    have := congrArg List.length (hu.trans hv.symm)
    simpa using this
  have hds : s = l.drop u.length := by rw [← hu, List.drop_left]
  have hdt : t = l.drop v.length := by rw [← hv, List.drop_left]
  have : s = t.drop (u.length - v.length) := by
    rw [hdt, hds, List.drop_drop]
    congr 1
    omega
  rw [this]
  exact List.drop_suffix _ _

/-! ## Recurrence equations of the two scanners -/

/-- Every substitution matcher of the source consumes at least one character. -/
def Consumes (m : List Char → Option (List Char × List Char)) : Prop :=
  ∀ l rep r, m l = some (rep, r) → r.length < l.length

/-- Every reporter matcher of the source consumes at least one character. -/
def Consumes1 (m : List Char → Option (List Char)) : Prop :=
  ∀ l r, m l = some r → r.length < l.length

theorem subF_nil (m : List Char → Option (List Char × List Char)) :
    ∀ n, subF m n [] = [] := by
  intro n; cases n <;> rfl

theorem subF_congr {m : List Char → Option (List Char × List Char)} (hm : Consumes m) :
    ∀ (n₁ : Nat) {n₂ : Nat} {l : List Char},
      l.length ≤ n₁ → l.length ≤ n₂ → subF m n₁ l = subF m n₂ l := by
  intro n₁
  induction n₁ with
  | zero =>
    intro n₂ l h1 _
    have : l = [] := List.length_eq_zero.mp (by omega)
    subst this
    simp [subF_nil]
  | succ n ih =>
    intro n₂ l h1 h2
    cases l with
    | nil => simp [subF_nil]
    | cons c cs =>
      cases n₂ with
      | zero => simp at h2
      | succ n₂' =>
        simp only [subF]
        cases hmc : m (c :: cs) with
        | none =>
          have h1' : cs.length ≤ n := by simp at h1; omega
          have h2' : cs.length ≤ n₂' := by simp at h2; omega
          rw [ih h1' h2']
        | some x =>
          obtain ⟨rep, r⟩ := x
          have hr := hm _ _ _ hmc
          simp at hr
          have h1' : r.length ≤ n := by simp at h1; omega
          have h2' : r.length ≤ n₂' := by simp at h2; omega
          show rep ++ subF m n r = rep ++ subF m n₂' r
          rw [ih h1' h2']

theorem runSub_nil (m : List Char → Option (List Char × List Char)) :
    runSub m [] = [] := rfl

theorem runSub_cons_none {m : List Char → Option (List Char × List Char)} {c : Char}
    {cs : List Char} (h : m (c :: cs) = none) :
    runSub m (c :: cs) = c :: runSub m cs := by
  show subF m (cs.length + 1) (c :: cs) = _
  simp only [subF, h]
  rfl

theorem runSub_match {m : List Char → Option (List Char × List Char)} (hm : Consumes m)
    {l rep r : List Char} (h : m l = some (rep, r)) :
    runSub m l = rep ++ runSub m r := by
  cases l with
  | nil => exfalso; have := hm _ _ _ h; simp at this
  | cons c cs =>
    show subF m (cs.length + 1) (c :: cs) = _
    simp only [subF, h]
    have hr := hm _ _ _ h
    simp at hr
    rw [subF_congr hm cs.length (by omega) (le_refl _)]
    rfl

theorem runSub_id_of_none {m : List Char → Option (List Char × List Char)} :
    ∀ {l : List Char}, (∀ s, s <:+ l → m s = none) → runSub m l = l := by
  intro l
  induction l with
  | nil => intro _; rfl
  | cons c cs ih =>
    intro h
    rw [runSub_cons_none (h _ (List.suffix_refl _)),
      ih (fun s hs => h s (hs.trans (List.suffix_cons c cs)))]

/-- A substitution whose matcher needs an occurrence of `p` is the identity on
texts without one. -/
theorem runSub_id_of_req {m : List Char → Option (List Char × List Char)} {p : List Char}
    (hreq : ∀ s x, m s = some x → ∃ u v, s = u ++ (p ++ v))
    {l : List Char} (hno : ¬ Occurs p l) : runSub m l = l := by
  apply runSub_id_of_none
  intro s hs
  cases hms : m s with
  | none => rfl
  | some x =>
    exfalso
    obtain ⟨u, v, huv⟩ := hreq s x hms
    obtain ⟨w, hw⟩ := hs
    exact hno ⟨w ++ u, v, by rw [← hw, huv]; simp⟩

theorem cntF_nil (m : List Char → Option (List Char)) : ∀ n, cntF m n [] = 0 := by
  intro n; cases n <;> rfl

theorem cntF_congr {m : List Char → Option (List Char)} (hm : Consumes1 m) :
    ∀ (n₁ : Nat) {n₂ : Nat} {l : List Char},
      l.length ≤ n₁ → l.length ≤ n₂ → cntF m n₁ l = cntF m n₂ l := by
  intro n₁
  induction n₁ with
  | zero =>
    intro n₂ l h1 _
    have : l = [] := List.length_eq_zero.mp (by omega)
    subst this
    simp [cntF_nil]
  | succ n ih =>
    intro n₂ l h1 h2
    cases l with
    | nil => simp [cntF_nil]
    | cons c cs =>
      cases n₂ with
      | zero => simp at h2
      | succ n₂' =>
        simp only [cntF]
        cases hmc : m (c :: cs) with
        | none =>
          have h1' : cs.length ≤ n := by simp at h1; omega
          have h2' : cs.length ≤ n₂' := by simp at h2; omega
          rw [ih h1' h2']
        | some r =>
          have hr := hm _ _ hmc
          simp at hr
          have h1' : r.length ≤ n := by simp at h1; omega
          have h2' : r.length ≤ n₂' := by simp at h2; omega
          show cntF m n r + 1 = cntF m n₂' r + 1
          rw [ih h1' h2']

theorem cnt_cons_none {m : List Char → Option (List Char)} {c : Char} {cs : List Char}
    (h : m (c :: cs) = none) : countMatches m (c :: cs) = countMatches m cs := by
  show cntF m (cs.length + 1) (c :: cs) = _
  simp only [cntF, h]
  rfl

theorem cnt_match {m : List Char → Option (List Char)} (hm : Consumes1 m)
    {l r : List Char} (h : m l = some r) :
    countMatches m l = countMatches m r + 1 := by
  cases l with
  | nil => exfalso; have := hm _ _ h; simp at this
  | cons c cs =>
    show cntF m (cs.length + 1) (c :: cs) = _
    simp only [cntF, h]
    have hr := hm _ _ h
    simp at hr
    rw [cntF_congr hm cs.length (by omega) (le_refl _)]
    rfl

/-! ## Structure of a successful match, rule by rule -/

theorem peel_cons_neg {a c : Char} {ps cs : List Char} (h : ¬ a = c) :
    peel (a :: ps) (c :: cs) = none := by
  simp [peel, h]

theorem arrowTail_some {g s1 rep r : List Char} (h : arrowTail g s1 = some (rep, r)) :
    ∃ w, (∀ c ∈ w, isPySpace c = true) ∧ s1 = w ++ '=' :: '>' :: r ∧
      rep = "async (".toList ++ g ++ ") =>".toList := by
  simp only [arrowTail] at h
  cases he : peel "=>".toList (s1.dropWhile isPySpace) with
  | none => rw [he] at h; simp at h
  | some r2 =>
    rw [he] at h
    simp at h
    refine ⟨s1.takeWhile isPySpace, fun c hc => List.mem_takeWhile_imp hc, ?_, h.1.symm⟩
    conv_lhs => rw [← List.takeWhile_append_dropWhile (p := isPySpace) (l := s1)]
    rw [peel_eq.mp he, ← h.2]
    rfl

theorem matchArrow_some {l rep r : List Char} (h : matchArrow l = some (rep, r)) :
    ∃ g w, (g = [] ∨ g = ", next".toList) ∧ (∀ c ∈ w, isPySpace c = true) ∧
      l = "(req, res".toList ++ (g ++ ')' :: (w ++ '=' :: '>' :: r)) := by
  simp only [matchArrow] at h
  split at h
  next => simp at h
  next s0 hp =>
    have hl : l = "(req, res".toList ++ s0 := peel_eq.mp hp
    split at h
    next s1 hn =>
      obtain ⟨w, hw, hs1, _⟩ := arrowTail_some h
      refine ⟨", next".toList, w, Or.inr rfl, hw, ?_⟩
      rw [hl, peel_eq.mp hn, hs1]
      rfl
    next hn =>
      split at h
      next s1 hq =>
        obtain ⟨w, hw, hs1, _⟩ := arrowTail_some h
        refine ⟨[], w, Or.inl rfl, hw, ?_⟩
        rw [hl, peel_eq.mp hq, hs1]
        rfl
      next => simp at h

theorem matchArrow_consumes : Consumes matchArrow := by
  intro l rep r h
  obtain ⟨g, w, _, _, hl⟩ := matchArrow_some h
  have := congrArg List.length hl
  simp at this
  omega

theorem matchFunc_some {l rep r : List Char} (h : matchFunc l = some (rep, r)) :
    ∃ w g, (∀ c ∈ w, isPySpace c = true) ∧ (g = [] ∨ g = ", next".toList) ∧
      l = "function".toList ++ (w ++ '(' :: ("req, res".toList ++ (g ++ ')' :: r))) := by
  simp only [matchFunc] at h
  split at h
  next => simp at h
  next s0 hp =>
    have hl : l = "function".toList ++ s0 := peel_eq.mp hp
    split at h
    next => simp at h
    next s1 hq =>
      obtain ⟨w, hw, hs0⟩ :
          ∃ w, (∀ c ∈ w, isPySpace c = true) ∧ s0 = w ++ ('(' :: ("req, res".toList ++ s1)) :=
        ⟨s0.takeWhile isPySpace, fun c hc => List.mem_takeWhile_imp hc, by
          conv_lhs => rw [← List.takeWhile_append_dropWhile (p := isPySpace) (l := s0)]
          rw [peel_eq.mp hq]
          rfl⟩
      split at h
      next s2 hn =>
        simp at h
        refine ⟨w, ", next".toList, hw, Or.inr rfl, ?_⟩
        rw [hl, hs0, peel_eq.mp hn, ← h.2]
        rfl
      next hn =>
        split at h
        next s2 hq2 =>
          simp at h
          refine ⟨w, [], hw, Or.inl rfl, ?_⟩
          rw [hl, hs0, peel_eq.mp hq2, ← h.2]
          rfl
        next => simp at h

theorem matchFunc_consumes : Consumes matchFunc := by
  intro l rep r h
  obtain ⟨w, g, _, _, hl⟩ := matchFunc_some h
  have := congrArg List.length hl
  simp at this
  omega

theorem matchGet_some {l rep r : List Char} (h : matchGet l = some (rep, r)) :
    ∃ g1 g2, g1 ≠ [] ∧ ')' ∉ g1 ∧ ')' ∉ g2 ∧
      l = "db.prepare".toList ++
        ('(' :: (g1 ++ ')' :: (".get".toList ++ ('(' :: (g2 ++ ')' :: r))))) ∧
      rep = "await db.getOne(".toList ++ (g1 ++ (", [".toList ++ (g2 ++ "])".toList))) := by
  simp only [matchGet] at h
  split at h
  next => simp at h
  next s0 hp =>
    split at h
    next => simp at h
    next g1 s1 hg =>
      split at h
      next => simp at h
      next hne =>
        split at h
        next => simp at h
        next s2 hq =>
          split at h
          next => simp at h
          next g2 s3 hg2 =>
            simp at h
            obtain ⟨h1, h2⟩ := grabTo_eq hg
            obtain ⟨h3, h4⟩ := grabTo_eq hg2
            refine ⟨g1, g2, hne, h2, h4, ?_, h.1.symm⟩
            rw [peel_eq.mp hp, h1, peel_eq.mp hq, h3, h.2]
            rfl

theorem matchGet_consumes : Consumes matchGet := by
  intro l rep r h
  obtain ⟨g1, g2, _, _, _, hl, _⟩ := matchGet_some h
  have := congrArg List.length hl
  simp at this
  omega

theorem matchAll_some {l rep r : List Char} (h : matchAll l = some (rep, r)) :
    ∃ g1 g2, g1 ≠ [] ∧ ')' ∉ g1 ∧ ')' ∉ g2 ∧
      l = "db.prepare".toList ++
        ('(' :: (g1 ++ ')' :: (".all".toList ++ ('(' :: (g2 ++ ')' :: r))))) ∧
      rep = "await db.getAll(".toList ++ (g1 ++ (", [".toList ++ (g2 ++ "])".toList))) := by
  simp only [matchAll] at h
  split at h
  next => simp at h
  next s0 hp =>
    split at h
    next => simp at h
    next g1 s1 hg =>
      split at h
      next => simp at h
      next hne =>
        split at h
        next => simp at h
        next s2 hq =>
          split at h
          next => simp at h
          next g2 s3 hg2 =>
            simp at h
            obtain ⟨h1, h2⟩ := grabTo_eq hg
            obtain ⟨h3, h4⟩ := grabTo_eq hg2
            refine ⟨g1, g2, hne, h2, h4, ?_, h.1.symm⟩
            rw [peel_eq.mp hp, h1, peel_eq.mp hq, h3, h.2]
            rfl

theorem matchAll_consumes : Consumes matchAll := by
  intro l rep r h
  obtain ⟨g1, g2, _, _, _, hl, _⟩ := matchAll_some h
  have := congrArg List.length hl
  simp at this
  omega

theorem matchRun2_some {l rep r : List Char} (h : matchRun2 l = some (rep, r)) :
    ∃ g1 g2, g1 ≠ [] ∧ ')' ∉ g1 ∧ ')' ∉ g2 ∧
      l = "db.prepare".toList ++
        ('(' :: (g1 ++ ')' :: (".run".toList ++ ('(' :: (g2 ++ ')' :: r))))) ∧
      rep = "await db.run(".toList ++ (g1 ++ (", [".toList ++ (g2 ++ "])".toList))) := by
  simp only [matchRun2] at h
  split at h
  next => simp at h
  next s0 hp =>
    split at h
    next => simp at h
    next g1 s1 hg =>
      split at h
      next => simp at h
      next hne =>
        split at h
        next => simp at h
        next s2 hq =>
          split at h
          next => simp at h
          next g2 s3 hg2 =>
            simp at h
            obtain ⟨h1, h2⟩ := grabTo_eq hg
            obtain ⟨h3, h4⟩ := grabTo_eq hg2
            refine ⟨g1, g2, hne, h2, h4, ?_, h.1.symm⟩
            rw [peel_eq.mp hp, h1, peel_eq.mp hq, h3, h.2]
            rfl

theorem matchRun2_consumes : Consumes matchRun2 := by
  intro l rep r h
  obtain ⟨g1, g2, _, _, _, hl, _⟩ := matchRun2_some h
  have := congrArg List.length hl
  simp at this
  omega

theorem matchChanges_some {l rep r : List Char} (h : matchChanges l = some (rep, r)) :
    l = "result.changes".toList ++ r ∧ rep = "result.rowCount".toList := by
  simp only [matchChanges] at h
  split at h
  next => simp at h
  next s0 hp =>
    simp at h
    exact ⟨h.2 ▸ peel_eq.mp hp, h.1.symm⟩

theorem matchChanges_consumes : Consumes matchChanges := by
  intro l rep r h
  have := congrArg List.length (matchChanges_some h).1
  simp at this
  omega

/-- The facts about a successful rule-5 match needed below: the text contains
`db.prepare(`, with everything of the match after the `(` recorded in `post`,
and the match consumes past the final `)` of the `.run(...)` call. -/
theorem matchRun1_some {l rep r : List Char} (h : matchRun1 l = some (rep, r)) :
    ∃ u post, l = (u ++ "db.prepare".toList) ++ '(' :: post ∧ r.length < l.length := by
  simp only [matchRun1] at h
  split at h
  next => simp at h
  next s0 hp =>
    split at h
    next => simp at h
    next hws =>
      split at h
      next => simp at h
      next hname =>
        split at h
        next => simp at h
        next s3 heq =>
          split at h
          next => simp at h
          next s4 hdb =>
            split at h
            next => simp at h
            next g2 s5 hg2 =>
              split at h
              next => simp at h
              next hg2ne =>
                split at h
                next => simp at h
                next s6 hsemi =>
                  split at h
                  next => simp at h
                  next s7 hbackref =>
                    split at h
                    next => simp at h
                    next s8 hrun =>
                      split at h
                      next => simp at h
                      next g3 s9 hg3 =>
                        simp at h
                        have e0 : l = "const".toList ++ s0 := peel_eq.mp hp
                        have e1 : s0 = s0.takeWhile isPySpace ++ s0.dropWhile isPySpace :=
                          (List.takeWhile_append_dropWhile (p := isPySpace) (l := s0)).symm
                        have e2 : s0.dropWhile isPySpace =
                            (s0.dropWhile isPySpace).takeWhile isWordChar ++
                              (s0.dropWhile isPySpace).dropWhile isWordChar :=
                          (List.takeWhile_append_dropWhile _ _).symm
                        have e3 : (s0.dropWhile isPySpace).dropWhile isWordChar =
                            ((s0.dropWhile isPySpace).dropWhile isWordChar).takeWhile
                                isPySpace ++
                              ((s0.dropWhile isPySpace).dropWhile
                                  isWordChar).dropWhile isPySpace :=
                          (List.takeWhile_append_dropWhile _ _).symm
                        have e4 := peel_eq.mp heq
                        have e5 : s3 = s3.takeWhile isPySpace ++ s3.dropWhile isPySpace :=
                          (List.takeWhile_append_dropWhile _ _).symm
                        have e6 := peel_eq.mp hdb
                        obtain ⟨e7, _⟩ := grabTo_eq hg2
                        have e8 := peel_eq.mp hsemi
                        have e10 := peel_eq.mp hbackref
                        have e11 := peel_eq.mp hrun
                        obtain ⟨e12, _⟩ := grabTo_eq hg3
                        refine ⟨"const".toList ++ s0.takeWhile isPySpace ++
                          (s0.dropWhile isPySpace).takeWhile isWordChar ++
                          ((s0.dropWhile isPySpace).dropWhile isWordChar).takeWhile
                            isPySpace ++ '=' :: s3.takeWhile isPySpace, s4, ?_, ?_⟩
                        · rw [e0]
                          conv_lhs => rw [e1, e2, e3, e4, e5, e6]
                          simp [List.append_assoc]
                        · have l0 := congrArg List.length e0
                          have l1 := congrArg List.length e1
                          have l2 := congrArg List.length e2
                          have l3 := congrArg List.length e3
                          have l4 := congrArg List.length e4
                          have l5 := congrArg List.length e5
                          have l6 := congrArg List.length e6
                          have l7 := congrArg List.length e7
                          have l8 := congrArg List.length e8
                          have l10 := congrArg List.length e10
                          have l11 := congrArg List.length e11
                          have l12 := congrArg List.length e12
                          have l13 := congrArg List.length h.2
                          have l9 : (List.dropWhile isPySpace s6).length ≤ s6.length := by
                            conv_rhs =>
                              rw [← List.takeWhile_append_dropWhile (p := isPySpace)
                                (l := s6)]
                            simp only [List.length_append]
                            omega
                          simp only [List.length_append, List.length_cons]
                            at l0 l1 l2 l3 l4 l5 l6 l7 l8 l10 l11 l12 l13
                          omega

theorem matchRun1_consumes : Consumes matchRun1 := by
  intro l rep r h
  obtain ⟨u, post, _, hlen⟩ := matchRun1_some h
  exact hlen

/-! ## Structure of the reporter matches -/

/-- The four verb headers of the reporter patterns. -/
def routeHdrs : List (List Char) :=
  ["app.get(".toList, "app.post(".toList, "app.put(".toList, "app.delete(".toList]

theorem stripHdr_some {l r : List Char} (h : stripHdr l = some r) :
    ∃ hd, hd ∈ routeHdrs ∧ l = hd ++ r := by
  simp only [stripHdr] at h
  split at h
  next r1 hp =>
    simp at h
    exact ⟨"app.get(".toList, by simp [routeHdrs], by rw [← h]; exact peel_eq.mp hp⟩
  next =>
    split at h
    next r1 hp =>
      simp at h
      exact ⟨"app.post(".toList, by simp [routeHdrs], by rw [← h]; exact peel_eq.mp hp⟩
    next =>
      split at h
      next r1 hp =>
        simp at h
        exact ⟨"app.put(".toList, by simp [routeHdrs], by rw [← h]; exact peel_eq.mp hp⟩
      next =>
        exact ⟨"app.delete(".toList, by simp [routeHdrs], peel_eq.mp h⟩

theorem routeHdr_app {hd : List Char} (h : hd ∈ routeHdrs) :
    ∃ t, hd = "app.".toList ++ t := by
  simp [routeHdrs] at h
  rcases h with h | h | h | h <;> subst h
  · exact ⟨"get(".toList, rfl⟩
  · exact ⟨"post(".toList, rfl⟩
  · exact ⟨"put(".toList, rfl⟩
  · exact ⟨"delete(".toList, rfl⟩

theorem routeHdr_len {hd : List Char} (h : hd ∈ routeHdrs) :
    8 ≤ hd.length ∧ hd.length ≤ 11 := by
  simp [routeHdrs] at h
  rcases h with h | h | h | h <;> subst h <;> decide

theorem matchRoute_some {tgt l r : List Char} (h : matchRoute tgt l = some r) :
    ∃ hd w1 w2, hd ∈ routeHdrs ∧ w1 ≠ [] ∧ ',' ∉ w1 ∧ '\n' ∉ w2 ∧
      l = hd ++ (w1 ++ ',' :: (w2 ++ (tgt ++ r))) := by
  simp only [matchRoute] at h
  split at h
  next => simp at h
  next s0 hs =>
    split at h
    next => simp at h
    next s1 ht =>
      obtain ⟨hd, hmem, hdec⟩ := stripHdr_some hs
      obtain ⟨w1, hne, hnc, hdec1⟩ := takeToComma_eq ht
      obtain ⟨w2, hnn, hdec2⟩ := searchTgt_eq h
      refine ⟨hd, w1, w2, hmem, hne, hnc, hnn, ?_⟩
      rw [hdec, hdec1, hdec2]
      simp

theorem matchRoute_consumes1 (tgt : List Char) : Consumes1 (matchRoute tgt) := by
  intro l r h
  obtain ⟨hd, w1, w2, hmem, _, _, _, hl⟩ := matchRoute_some h
  have hhd := (routeHdr_len hmem).1
  have := congrArg List.length hl
  simp only [List.length_append, List.length_cons] at this
  omega

theorem matchRoute_suffix {tgt l r : List Char} (h : matchRoute tgt l = some r) :
    r <:+ l := by
  obtain ⟨hd, w1, w2, _, _, _, _, hl⟩ := matchRoute_some h
  exact ⟨hd ++ w1 ++ [','] ++ w2 ++ tgt, by rw [hl]; simp⟩

/-- The two reporter targets: the converted pattern is the total pattern
behind the marker `async `. -/
theorem tgt_split : tgtAsyncRoutes = "async ".toList ++ tgtAllRoutes := rfl

/-- Domination at a fixed position: where the converted pattern matches, the
total pattern matches as well, ending no later. -/
theorem matchRoute_async_to_all {l r : List Char}
    (h : matchRoute tgtAsyncRoutes l = some r) :
    ∃ r', matchRoute tgtAllRoutes l = some r' ∧ r.length ≤ r'.length := by
  simp only [matchRoute] at h
  split at h
  next => simp at h
  next s0 hs =>
    split at h
    next => simp at h
    next s1 ht =>
      obtain ⟨w, hw, hsplit⟩ := searchTgt_eq h
      have hsplit' : s1 = (w ++ "async ".toList) ++ (tgtAllRoutes ++ r) := by
        rw [hsplit, tgt_split]
        simp
      have hn : '\n' ∉ w ++ "async ".toList := by
        intro hmem
        rcases List.mem_append.mp hmem with h' | h'
        · exact hw h'
        · exact absurd h' (by decide)
      obtain ⟨r', hr', hlen⟩ :=
        searchTgt_of_split (show tgtAllRoutes ≠ [] by decide) hn r
      refine ⟨r', ?_, hlen⟩
      simp only [matchRoute, hs, ht]
      rw [hsplit']
      exact hr'

/-- Domination across positions: a total-pattern match from an earlier
position ends no earlier than a converted-pattern match from a later one. -/
theorem matchRoute_all_of_suffix {x y rx ry : List Char} (hsuf : y <:+ x)
    (hx : matchRoute tgtAllRoutes x = some rx)
    (hy : matchRoute tgtAsyncRoutes y = some ry) : ry.length ≤ rx.length := by
  simp only [matchRoute] at hx hy
  split at hx
  next => simp at hx
  next x1 hsx =>
    split at hx
    next => simp at hx
    next x2 htx =>
      split at hy
      next => simp at hy
      next y1 hsy =>
        split at hy
        next => simp at hy
        next y2 hty =>
          obtain ⟨hdx, hmx, hex⟩ := stripHdr_some hsx
          obtain ⟨hdy, hmy, hey⟩ := stripHdr_some hsy
          have hy1y : y1 <:+ y := ⟨hdy, hey.symm⟩
          have hx1x : x1 <:+ x := ⟨hdx, hex.symm⟩
          have hy1x : y1 <:+ x1 := by
            obtain ⟨u, hu⟩ := hsuf
            by_cases hu0 : u = []
            · subst hu0
              simp at hu
              rw [hu] at hsy
              rw [hsx] at hsy
              simp at hsy
              rw [hsy]
            · obtain ⟨tx, htx'⟩ := routeHdr_app hmx
              obtain ⟨ty, hty'⟩ := routeHdr_app hmy
              have hxa : x = 'a' :: 'p' :: 'p' :: '.' :: (tx ++ x1) := by
                rw [hex, htx']
                rfl
              have hya : y = 'a' :: 'p' :: 'p' :: '.' :: (ty ++ y1) := by
                rw [hey, hty']
                rfl
              have hu4 : 4 ≤ u.length := by
                rcases u with _ | ⟨c1, _ | ⟨c2, _ | ⟨c3, _ | ⟨c4, u4⟩⟩⟩⟩
                · exact absurd rfl hu0
                · rw [hya, hxa] at hu; simp at hu
                · rw [hya, hxa] at hu; simp at hu
                · rw [hya, hxa] at hu; simp at hu
                · simp
              have hlx := routeHdr_len hmx
              have hly := routeHdr_len hmy
              have e := congrArg List.length hu
              have ex := congrArg List.length hex
              have ey := congrArg List.length hey
              simp only [List.length_append] at e ex ey
              exact suffix_of_suffix_of_length_le (hy1y.trans ⟨u, hu⟩) hx1x (by omega)
          obtain ⟨u1, hu1⟩ := hy1x
          obtain ⟨w1, hw1ne, hw1c, he1⟩ := takeToComma_eq hty
          have hx1d : x1 = (u1 ++ w1) ++ ',' :: y2 := by
            rw [← hu1, he1]
            simp
          have hcomma := takeToComma_min htx (u1 ++ w1) y2 hx1d
          have hy2x2 : y2 <:+ x2 := by
            have h1 : y2 <:+ x :=
              ((show y2 <:+ y1 from ⟨w1 ++ [','], by rw [he1]; simp⟩).trans hy1y).trans hsuf
            have h2 : x2 <:+ x := by
              obtain ⟨wx, _, _, hex2⟩ := takeToComma_eq htx
              exact (show x2 <:+ x1 from ⟨wx ++ [','], by rw [hex2]; simp⟩).trans hx1x
            exact suffix_of_suffix_of_length_le h1 h2 hcomma
          obtain ⟨u2, hu2⟩ := hy2x2
          obtain ⟨w2, hw2n, he2⟩ := searchTgt_eq hy
          have hx2d : x2 = ((u2 ++ w2) ++ "async ".toList) ++ tgtAllRoutes ++ ry := by
            rw [← hu2, he2, tgt_split]
            simp
          exact searchTgt_min hx _ ry hx2d

theorem countMatches_nil (m : List Char → Option (List Char)) :
    countMatches m [] = 0 := rfl

/-- Core inequality behind the progress report: scanning any suffix `y` for
the converted pattern finds no more matches than scanning `x ⊇ y` for the
total pattern. -/
theorem count_mono_aux :
    ∀ (n : Nat) (x y : List Char), x.length + y.length ≤ n → y <:+ x →
      countMatches (matchRoute tgtAsyncRoutes) y ≤
        countMatches (matchRoute tgtAllRoutes) x := by
  intro n
  induction n with
  | zero =>
    intro x y hlen _
    have : y = [] := List.length_eq_zero.mp (by omega)
    subst this
    simp [countMatches_nil]
  | succ n ih =>
    intro x y hlen hsuf
    cases hy0 : y with
    | nil => simp [countMatches_nil]
    | cons c ys =>
      subst hy0
      cases hmy : matchRoute tgtAsyncRoutes (c :: ys) with
      | none =>
        rw [cnt_cons_none hmy]
        refine ih x ys ?_ ((List.suffix_cons c ys).trans hsuf)
        simp at hlen ⊢
        omega
      | some ry =>
        cases hmx : matchRoute tgtAllRoutes x with
        | some rx =>
          rw [cnt_match (matchRoute_consumes1 _) hmx,
            cnt_match (matchRoute_consumes1 _) hmy]
          have hlen2 := matchRoute_all_of_suffix hsuf hmx hmy
          have hry : ry <:+ rx :=
            suffix_of_suffix_of_length_le
              ((matchRoute_suffix hmy).trans hsuf) (matchRoute_suffix hmx) hlen2
          have hc1 := matchRoute_consumes1 tgtAllRoutes x rx hmx
          have hc2 := matchRoute_consumes1 tgtAsyncRoutes (c :: ys) ry hmy
          have := ih rx ry (by simp at hlen hc2 ⊢; omega) hry
          omega
        | none =>
          cases hx0 : x with
          | nil =>
            exfalso
            have := List.IsSuffix.length_le hsuf
            rw [hx0] at this
            simp at this
          | cons d xs =>
            subst hx0
            rw [cnt_cons_none hmx]
            have hxy : ¬ (c :: ys).length = (d :: xs).length := by
              intro he
              obtain ⟨u, hu⟩ := hsuf
              have hu0 : u = [] := by
                have := congrArg List.length hu
                simp at this he
                exact List.length_eq_zero.mp (by omega)
              subst hu0
              simp at hu
              obtain ⟨hcd, hyx⟩ := hu
              subst hcd
              subst hyx
              obtain ⟨r', hr', _⟩ := matchRoute_async_to_all hmy
              rw [hmx] at hr'
              exact Option.noConfusion hr'
            have hsuf' : (c :: ys) <:+ xs := by
              refine suffix_of_suffix_of_length_le hsuf ⟨[d], rfl⟩ ?_
              have := List.IsSuffix.length_le hsuf
              simp at this hxy ⊢
              omega
            refine ih xs (c :: ys) ?_ hsuf'
            simp at hlen ⊢
            omega

/-- `async_routes ≤ all_routes` for every file content. -/
theorem async_le_all (content : List Char) :
    asyncRoutesCount content ≤ allRoutesCount content :=
  count_mono_aux (content.length + content.length) content content (le_refl _)
    (List.suffix_refl _)

/-! ## The claims -/

/-- **C10.**  For every input text, the converted-route count is at most the
total-route count: the converted pattern only matches where the total pattern
does, ending no later, and the leftmost non-overlapping match enumeration
preserves the inequality; so the printed `remaining` value `total - converted`
(Python's unbounded integer subtraction) is never negative. -/
theorem c10_converted_le_total (content : List Char) :
    asyncRoutesCount content ≤ allRoutesCount content ∧
      (0 : Int) ≤ (allRoutesCount content : Int) - (asyncRoutesCount content : Int) := by
  have h := async_le_all content
  exact ⟨h, by omega⟩

/-- Witness for C10 at a concrete file content. -/
theorem c10_witness :
    asyncRoutesCount "app.get(p, async (req, res) => go())".toList ≤
      allRoutesCount "app.get(p, async (req, res) => go())".toList :=
  (c10_converted_le_total "app.get(p, async (req, res) => go())".toList).1

/-- **C3.**  On every file whose route count is zero, the percentage
computation `async_routes*100//all_routes` in `main` divides by zero: the
error is not guarded, the run ends with the uncaught `ZeroDivisionError`, and
the process does not complete normally with exit code 0. -/
theorem c3_zero_routes_crash (content : List Char)
    (h : allRoutesCount content = 0) :
    runMain (some content) = RunResult.zeroDivisionError ∧
      RunResult.exitCode (runMain (some content)) ≠ some 0 := by
  have h1 : runMain (some content) = RunResult.zeroDivisionError := by
    simp [runMain, runMainWith, h]
  refine ⟨h1, ?_⟩
  rw [h1]
  simp [RunResult.exitCode]

/-- Witness for C3: the empty file has zero routes and crashes. -/
theorem c3_witness :
    allRoutesCount [] = 0 ∧
      (runMain (some []) = RunResult.zeroDivisionError ∧
        RunResult.exitCode (runMain (some [])) ≠ some 0) :=
  ⟨by decide, c3_zero_routes_crash [] (by decide)⟩

/-- **C4.**  If the target file does not exist, `main` prints
`ERROR: server.js not found!` and exits with code 1; a file with a non-zero
route count completes normally with the printed report and exit code 0; and
these two together with the unguarded division by zero are the only outcomes
(the `FileNotFoundError` handler is the only error handling in the program). -/
theorem c4_errors (content : List Char) (h : allRoutesCount content ≠ 0) :
    (runMain none = RunResult.fileNotFound "ERROR: server.js not found!".toList ∧
      RunResult.exitCode (runMain none) = some 1) ∧
    (runMain (some content) =
        RunResult.report (allRoutesCount content) (asyncRoutesCount content)
          ((allRoutesCount content : Int) - (asyncRoutesCount content : Int))
          (asyncRoutesCount content * 100 / allRoutesCount content) ∧
      RunResult.exitCode (runMain (some content)) = some 0) ∧
    (∀ f : Option (List Char),
      (∃ m, runMain f = RunResult.fileNotFound m) ∨
      (∃ t k rem p, runMain f = RunResult.report t k rem p) ∨
      runMain f = RunResult.zeroDivisionError) := by
  refine ⟨⟨rfl, rfl⟩, ⟨?_, ?_⟩, ?_⟩
  · simp [runMain, runMainWith, h]
  · simp [runMain, runMainWith, h, RunResult.exitCode]
  · intro f
    cases f with
    | none => exact Or.inl ⟨_, rfl⟩
    | some c =>
      by_cases h0 : allRoutesCount c = 0
      · exact Or.inr (Or.inr (by simp [runMain, runMainWith, h0]))
      · refine Or.inr (Or.inl ⟨allRoutesCount c, asyncRoutesCount c,
          (allRoutesCount c : Int) - (asyncRoutesCount c : Int),
          asyncRoutesCount c * 100 / allRoutesCount c, ?_⟩)
        simp [runMain, runMainWith, h0]

/-- Witness for C4 at a one-route file. -/
theorem c4_witness :
    allRoutesCount "app.get(p, (req, res".toList ≠ 0 ∧
      (runMain none = RunResult.fileNotFound "ERROR: server.js not found!".toList ∧
        RunResult.exitCode (runMain none) = some 1) ∧
      RunResult.exitCode (runMain (some "app.get(p, (req, res".toList)) = some 0 :=
  ⟨by decide, (c4_errors "app.get(p, (req, res".toList (by decide)).1,
    (c4_errors "app.get(p, (req, res".toList (by decide)).2.1.2⟩

/-- **C9.**  The driver never invokes the pattern rewriter and performs no
file write: its outcome is the same whatever rewriter is in scope (the
rewriter is dead code), its only filesystem access is the single read of the
fixed target path, and the rewriter's output is never persisted. -/
theorem c9_driver_frame :
    (∀ (f : List Char → List Char) (file : Option (List Char)),
      runMainWith f file = runMain file) ∧
      mainReads = ["/data/ASM/server.js".toList] ∧ mainWrites = [] :=
  ⟨fun _ _ => rfl, rfl, rfl⟩

/-- Witness for C9: a run with the identity rewriter in scope. -/
theorem c9_witness : runMainWith (fun l => l) none = runMain none :=
  c9_driver_frame.1 (fun l => l) none

/-- **C8.**  The rewrite operation is total and pure: for every input the
embedding returns a result, and equal inputs give equal outputs.  The source
function performs no I/O and touches no external state — each `re.sub` with
these fixed, statically valid patterns cannot raise — which is what the
shallow embedding as a total pure function of its argument records. -/
theorem c8_total_pure (t : List Char) :
    (∃ u, convert_route_to_async t = u) ∧
      (∀ t', t' = t → convert_route_to_async t' = convert_route_to_async t) :=
  ⟨⟨_, rfl⟩, fun _ h => by rw [h]⟩

/-- Witness for C8, discharging the determinism hypothesis at a concrete
input. -/
theorem c8_witness :
    convert_route_to_async "result.changes".toList =
      convert_route_to_async "result.changes".toList :=
  (c8_total_pure "result.changes".toList).2 "result.changes".toList rfl

/-- **C2, counterexample.**  Rule 1 has no already-asynchronous guard: the
pattern `\((req, res(?:, next)?)\)\s*=>` also matches inside
`async (req, res) =>`, so an already-marked handler is changed (it gains a
second marker), and applying the rewrite twice differs from applying it once. -/
theorem c2_counterexample :
    convert_route_to_async (convert_route_to_async "(req, res) => 1".toList) ≠
        convert_route_to_async "(req, res) => 1".toList ∧
      convert_route_to_async "async (req, res) => 1".toList ≠
        "async (req, res) => 1".toList := by
  decide

/-- **C2 (amended).**  Rule 1 prefixes the marker `async ` to every arrow
handler whose parameter list is exactly `(req, res)` or `(req, res, next)`,
including a handler already marked (the pattern has no already-async guard):
one marker is added per application, so a second application of the rewrite
yields a doubly-marked handler and the rule is not idempotent. -/
theorem c2_amended (b : List Char) :
    runSub matchArrow ("(req, res) =>".toList ++ b) =
        "async (req, res) =>".toList ++ runSub matchArrow b ∧
      runSub matchArrow ("(req, res, next) =>".toList ++ b) =
        "async (req, res, next) =>".toList ++ runSub matchArrow b ∧
      runSub matchArrow ("async (req, res) =>".toList ++ b) =
        "async async (req, res) =>".toList ++ runSub matchArrow b := by
  have h1 : matchArrow ("(req, res) =>".toList ++ b) =
      some ("async (req, res) =>".toList, b) := rfl
  have h2 : matchArrow ("(req, res, next) =>".toList ++ b) =
      some ("async (req, res, next) =>".toList, b) := rfl
  refine ⟨runSub_match matchArrow_consumes h1, runSub_match matchArrow_consumes h2, ?_⟩
  have e0 : ("async (req, res) =>".toList ++ b) =
      'a' :: 's' :: 'y' :: 'n' :: 'c' :: ' ' :: ("(req, res) =>".toList ++ b) := rfl
  rw [e0, runSub_cons_none rfl, runSub_cons_none rfl, runSub_cons_none rfl,
    runSub_cons_none rfl, runSub_cons_none rfl, runSub_cons_none rfl,
    runSub_match matchArrow_consumes h1]
  rfl

/-- Witness for C2 (amended) at a concrete handler body. -/
theorem c2_amended_witness :
    runSub matchArrow ("(req, res) =>".toList ++ " 1".toList) =
      "async (req, res) =>".toList ++ runSub matchArrow " 1".toList :=
  (c2_amended " 1".toList).1

/-- **C7.**  The field-rename pass (rule 7, the `re.sub` at lines 54–58)
replaces every literal occurrence of `result.changes` by `result.rowCount`
and alters no other substring: it is the identity on a text with no
occurrence, at an occurrence it emits `result.rowCount` and continues after
the occurrence, and at any position not starting an occurrence it copies the
character unchanged. -/
theorem c7_changes (l : List Char) (c : Char) :
    (¬ Occurs "result.changes".toList l → runSub matchChanges l = l) ∧
      runSub matchChanges ("result.changes".toList ++ l) =
        "result.rowCount".toList ++ runSub matchChanges l ∧
      (¬ ("result.changes".toList <+: (c :: l)) →
        runSub matchChanges (c :: l) = c :: runSub matchChanges l) := by
  refine ⟨?_, ?_, ?_⟩
  · intro hno
    refine runSub_id_of_req (fun s x hx => ?_) hno
    obtain ⟨rep, r⟩ := x
    obtain ⟨hs, _⟩ := matchChanges_some hx
    exact ⟨[], r, by simpa using hs⟩
  · refine runSub_match matchChanges_consumes ?_
    simp only [matchChanges, peel_self_append]
  · intro hpre
    refine runSub_cons_none ?_
    cases hp : peel "result.changes".toList (c :: l) with
    | some r => exact absurd ⟨r, (peel_eq.mp hp).symm⟩ hpre
    | none => simp only [matchChanges, hp]

/-- Witness for C7: identity on a text without the field name. -/
theorem c7_witness :
    (¬ Occurs "result.changes".toList "x = result.rowCount;".toList) ∧
      runSub matchChanges "x = result.rowCount;".toList =
        "x = result.rowCount;".toList :=
  ⟨by decide, (c7_changes "x = result.rowCount;".toList 'x').1 (by decide)⟩

/-! ## Tools for refuting occurrences across a concatenation -/

theorem mem_of_getLast? : ∀ {l : List Char} {ch : Char}, l.getLast? = some ch → ch ∈ l := by
  intro l
  induction l with
  | nil => intro ch h; simp at h
  | cons c cs ih =>
    intro ch h
    cases cs with
    | nil => simp [List.getLast?] at h; simp [h]
    | cons d ds =>
      rw [List.getLast?_cons_cons] at h
      exact List.mem_cons_of_mem _ (ih h)

theorem mem_of_head? {l : List Char} {ch : Char} (h : l.head? = some ch) : ch ∈ l := by
  cases l with
  | nil => simp at h
  | cons c cs => simp at h; simp [h]

/-- No occurrence when some character of the pattern is missing from the text. -/
theorem not_occurs_of_not_mem {p l : List Char} {ch : Char} (hch : ch ∈ p) (hl : ch ∉ l) :
    ¬ Occurs p l := by
  rintro ⟨u, v, huv⟩
  exact hl (huv ▸ (by simp [hch]))

/-- No occurrence in `a ++ b` when there is none in `a`, none in `b`, and no
non-trivial prefix of `p` is a suffix of `a` (decidable for concrete `p`, `a`). -/
theorem not_occurs_append_left {p a b : List Char}
    (ha : ¬ Occurs p a) (hb : ¬ Occurs p b)
    (hno : ∀ i ∈ List.range p.length, ¬ (1 ≤ i ∧ p.take i <:+ a)) :
    ¬ Occurs p (a ++ b) := by
  intro h
  rcases occurs_append h with h' | h' | ⟨p1, p2, he, n1, n2, hs, _⟩
  · exact ha h'
  · exact hb h'
  · have hlen := congrArg List.length he
    simp only [List.length_append] at hlen
    have h2 : 0 < p2.length := List.length_pos.mpr n2
    have h1 : 0 < p1.length := List.length_pos.mpr n1
    refine hno p1.length (by simp [List.mem_range]; omega) ⟨by omega, ?_⟩
    have ht : p.take p1.length = p1 := by rw [he, List.take_left]
    rw [ht]
    exact hs

/-- No occurrence in `a ++ b` when there is none in `a`, none in `b`, `b`
starts with `ch`, and no non-trivial suffix of `p` starts with `ch`
(decidable for concrete `p`, `ch`). -/
theorem not_occurs_append_head {p a b : List Char} {ch : Char}
    (ha : ¬ Occurs p a) (hb : ¬ Occurs p b) (hhead : b.head? = some ch)
    (hno : ∀ i ∈ List.range p.length, ¬ (1 ≤ i ∧ (p.drop i).head? = some ch)) :
    ¬ Occurs p (a ++ b) := by
  intro h
  rcases occurs_append h with h' | h' | ⟨p1, p2, he, n1, n2, hs, hp⟩
  · exact ha h'
  · exact hb h'
  · have hlen := congrArg List.length he
    simp only [List.length_append] at hlen
    have h2 : 0 < p2.length := List.length_pos.mpr n2
    have h1 : 0 < p1.length := List.length_pos.mpr n1
    refine hno p1.length (by simp [List.mem_range]; omega) ⟨by omega, ?_⟩
    have hd : p.drop p1.length = p2 := by rw [he, List.drop_left]
    rw [hd, prefix_head? hp n2, hhead]

/-! ## Identity of the handler rules on prepared-statement texts -/

/-- A whitespace run followed by `=>` cannot equal a text headed by a
non-space character other than `=`. -/
theorem ws_arrow_post {w r z : List Char} {ch : Char}
    (hw : ∀ c ∈ w, isPySpace c = true) (h1 : isPySpace ch = false) (h2 : ¬ ch = '=')
    (he : w ++ '=' :: '>' :: r = ch :: z) : False := by
  cases w with
  | nil =>
    simp at he
    exact h2 he.1.symm
  | cons c w' =>
    simp at he
    have hc := hw c (by simp)
    rw [he.1] at hc
    rw [h1] at hc
    exact Bool.noConfusion hc

/-- Rule 1 matches nothing in a text of the shape `v1 ++ ")" ++ v2 ++ ")"`
where the parentheses shown are the only ones closing and `v2` is headed by a
non-space character other than `=`: each candidate match needs `\s*=>` after
its closing parenthesis, and neither closing parenthesis is so followed. -/
theorem arrow_id_of_two_parens {l v1 v2 z2 : List Char} {c2 : Char}
    (h1 : ')' ∉ v1) (h2 : ')' ∉ v2)
    (hl : l = v1 ++ ')' :: (v2 ++ ')' :: []))
    (hv2 : v2 ++ ')' :: [] = c2 :: z2) (hc2a : isPySpace c2 = false) (hc2b : ¬ c2 = '=') :
    runSub matchArrow l = l := by
  apply runSub_id_of_none
  intro s hs
  cases hms : matchArrow s with
  | none => rfl
  | some x =>
    exfalso
    obtain ⟨rep, r⟩ := x
    obtain ⟨g, w, hg, hw, hdec⟩ := matchArrow_some hms
    obtain ⟨U, hU⟩ := hs
    have h0 : (U ++ ("(req, res".toList ++ g)) ++ ')' :: (w ++ '=' :: '>' :: r) =
        v1 ++ ')' :: (v2 ++ ')' :: []) := by
      rw [← hl, ← hU, hdec]
      simp [List.append_assoc]
    rcases marker_two h1 h2 (by simp) h0 with ⟨_, hpost⟩ | ⟨_, hpost⟩
    · rw [hv2] at hpost
      exact ws_arrow_post hw hc2a hc2b hpost
    · simp at hpost

/-- The text before a rule-2 match's `(` is `…function` + whitespace; it
cannot equal a text whose last character is neither `n` nor whitespace. -/
theorem func_pre_ne {U w v : List Char} {ch : Char}
    (hw : ∀ c ∈ w, isPySpace c = true) (hv : v.getLast? = some ch)
    (h1 : ¬ ch = 'n') (h2 : isPySpace ch = false)
    (he : U ++ ("function".toList ++ w) = v) : False := by
  cases w with
  | nil =>
    rw [← he, List.getLast?_append_of_ne_nil U (by decide)] at hv
    have : ch = 'n' := by
      have : some 'n' = some ch := by rw [← hv]; decide
      simpa using this.symm
    exact h1 this
  | cons c0 w' =>
    rw [← he, List.getLast?_append_of_ne_nil U (by simp),
      List.getLast?_append_of_ne_nil "function".toList (by simp)] at hv
    have hm := mem_of_getLast? hv
    have := hw ch hm
    rw [h2] at this
    exact Bool.noConfusion this

/-- The text before a rule-2 match's `(` cannot end in `.run` either:
`.run` is not a suffix of `function`, and its last character is not
whitespace. -/
theorem func_pre_run {U w v : List Char}
    (hw : ∀ c ∈ w, isPySpace c = true) (hv : ".run".toList <:+ v)
    (he : U ++ ("function".toList ++ w) = v) : False := by
  cases w with
  | nil =>
    have hfn : "function".toList <:+ v := ⟨U, by simpa using he⟩
    have : ".run".toList <:+ "function".toList :=
      suffix_of_suffix_of_length_le hv hfn (by decide)
    exact absurd this (by decide)
  | cons c0 w' =>
    have h1 : v.getLast? = some 'n' := by
      rw [← suffix_getLast? hv (by decide)]
      decide
    rw [← he, List.getLast?_append_of_ne_nil U (by simp),
      List.getLast?_append_of_ne_nil "function".toList (by simp)] at h1
    have hm := mem_of_getLast? h1
    have := hw 'n' hm
    exact absurd this (by decide)

/-- Rule 2 matches nothing in a text with exactly two `(` whose two prefixes
are refuted by the supplied continuations. -/
theorem func_id_of_two_parens {l v1 v2 v3 : List Char}
    (h1 : '(' ∉ v1) (h2 : '(' ∉ v2) (h3 : '(' ∉ v3)
    (hl : l = v1 ++ '(' :: (v2 ++ '(' :: v3))
    (hk1 : ∀ U w, (∀ c ∈ w, isPySpace c = true) → U ++ ("function".toList ++ w) = v1 → False)
    (hk2 : ∀ U w, (∀ c ∈ w, isPySpace c = true) →
      U ++ ("function".toList ++ w) = v1 ++ '(' :: v2 → False) :
    runSub matchFunc l = l := by
  apply runSub_id_of_none
  intro s hs
  cases hms : matchFunc s with
  | none => rfl
  | some x =>
    exfalso
    obtain ⟨rep, r⟩ := x
    obtain ⟨w, g, hw, hg, hdec⟩ := matchFunc_some hms
    obtain ⟨U, hU⟩ := hs
    have h0 : (U ++ ("function".toList ++ w)) ++ '(' :: ("req, res".toList ++ (g ++ ')' :: r)) =
        v1 ++ '(' :: (v2 ++ '(' :: v3) := by
      rw [← hl, ← hU, hdec]
      simp [List.append_assoc]
    rcases marker_two h1 h2 h3 h0 with ⟨hpre, _⟩ | ⟨hpre, _⟩
    · exact hk1 U w hw hpre
    · exact hk2 U w hw hpre

/-! ## The infix each prepared-statement rule needs -/

theorem matchGet_req : ∀ (s : List Char) (x : List Char × List Char),
    matchGet s = some x → ∃ u v, s = u ++ ("db.prepare(".toList ++ v) := by
  intro s x hx
  obtain ⟨rep, r⟩ := x
  obtain ⟨g1, g2, _, _, _, hs, _⟩ := matchGet_some hx
  exact ⟨[], g1 ++ ')' :: (".get".toList ++ ('(' :: (g2 ++ ')' :: r))), by
    rw [hs]; rfl⟩

theorem matchGet_req' : ∀ (s : List Char) (x : List Char × List Char),
    matchGet s = some x → ∃ u v, s = u ++ (".get(".toList ++ v) := by
  intro s x hx
  obtain ⟨rep, r⟩ := x
  obtain ⟨g1, g2, _, _, _, hs, _⟩ := matchGet_some hx
  refine ⟨"db.prepare".toList ++ ('(' :: (g1 ++ [')'])), g2 ++ ')' :: r, ?_⟩
  rw [hs]
  simp [List.append_assoc]

theorem matchAll_req : ∀ (s : List Char) (x : List Char × List Char),
    matchAll s = some x → ∃ u v, s = u ++ ("db.prepare(".toList ++ v) := by
  intro s x hx
  obtain ⟨rep, r⟩ := x
  obtain ⟨g1, g2, _, _, _, hs, _⟩ := matchAll_some hx
  exact ⟨[], g1 ++ ')' :: (".all".toList ++ ('(' :: (g2 ++ ')' :: r))), by
    rw [hs]; rfl⟩

theorem matchAll_req' : ∀ (s : List Char) (x : List Char × List Char),
    matchAll s = some x → ∃ u v, s = u ++ (".all(".toList ++ v) := by
  intro s x hx
  obtain ⟨rep, r⟩ := x
  obtain ⟨g1, g2, _, _, _, hs, _⟩ := matchAll_some hx
  refine ⟨"db.prepare".toList ++ ('(' :: (g1 ++ [')'])), g2 ++ ')' :: r, ?_⟩
  rw [hs]
  simp [List.append_assoc]

theorem matchRun2_req : ∀ (s : List Char) (x : List Char × List Char),
    matchRun2 s = some x → ∃ u v, s = u ++ ("db.prepare(".toList ++ v) := by
  intro s x hx
  obtain ⟨rep, r⟩ := x
  obtain ⟨g1, g2, _, _, _, hs, _⟩ := matchRun2_some hx
  exact ⟨[], g1 ++ ')' :: (".run".toList ++ ('(' :: (g2 ++ ')' :: r))), by
    rw [hs]; rfl⟩

theorem matchRun1_req : ∀ (s : List Char) (x : List Char × List Char),
    matchRun1 s = some x → ∃ u v, s = u ++ ("db.prepare(".toList ++ v) := by
  intro s x hx
  obtain ⟨rep, r⟩ := x
  obtain ⟨u, post, hs, _⟩ := matchRun1_some hx
  refine ⟨u, post, ?_⟩
  rw [hs]
  simp [List.append_assoc]

theorem matchChanges_req : ∀ (s : List Char) (x : List Char × List Char),
    matchChanges s = some x → ∃ u v, s = u ++ ("result.changes".toList ++ v) := by
  intro s x hx
  obtain ⟨rep, r⟩ := x
  obtain ⟨hs, _⟩ := matchChanges_some hx
  exact ⟨[], r, by simpa using hs⟩

/-! ## Character-class facts and evaluation of the firing rules -/

theorem word_not_ws {c : Char} (h : isWordChar c = true) : isPySpace c = false := by
  cases hps : isPySpace c
  · rfl
  · exfalso
    simp only [isPySpace, Bool.or_eq_true, decide_eq_true_eq] at hps
    rcases hps with ((((h' | h') | h') | h') | h') | h' <;> subst h' <;>
      exact absurd h (by decide)

theorem takeWhile_ws_word_head {s z : List Char} (hne : s ≠ [])
    (hs : ∀ c ∈ s, isWordChar c = true) :
    (s ++ z).takeWhile isPySpace = [] := by
  cases s with
  | nil => exact absurd rfl hne
  | cons c cs => simp [List.takeWhile_cons, word_not_ws (hs c (by simp))]

theorem dropWhile_ws_word_head {s z : List Char} (hne : s ≠ [])
    (hs : ∀ c ∈ s, isWordChar c = true) :
    (s ++ z).dropWhile isPySpace = s ++ z := by
  cases s with
  | nil => exact absurd rfl hne
  | cons c cs => simp [List.dropWhile_cons, word_not_ws (hs c (by simp))]

theorem takeWhile_word_stop {s z : List Char} {d : Char}
    (hs : ∀ c ∈ s, isWordChar c = true) (hd : isWordChar d = false) :
    (s ++ d :: z).takeWhile isWordChar = s ∧
      (s ++ d :: z).dropWhile isWordChar = d :: z := by
  induction s with
  | nil => simp [List.takeWhile_cons, List.dropWhile_cons, hd]
  | cons c cs ih =>
    have hc : isWordChar c = true := hs c (by simp)
    have ihh := ih (fun c' hc' => hs c' (by simp [hc']))
    simp [List.takeWhile_cons, List.dropWhile_cons, hc, ihh.1, ihh.2]

/-- Rule 3 fires on `db.prepare(X).get(Y)` with parenthesis-free non-empty
`X` and parenthesis-free `Y`, consuming the whole text. -/
theorem matchGet_fire (X Y : List Char) (hXne : ¬ X = []) (hXq : ')' ∉ X) (hYq : ')' ∉ Y) :
    matchGet ("db.prepare(".toList ++ (X ++ (").get(".toList ++ (Y ++ ")".toList)))) =
      some ("await db.getOne(".toList ++ X ++ ", [".toList ++ Y ++ "])".toList, []) := by
  have e1 : peel "db.prepare(".toList
      ("db.prepare(".toList ++ (X ++ (").get(".toList ++ (Y ++ ")".toList)))) =
      some (X ++ (").get(".toList ++ (Y ++ ")".toList))) := peel_self_append _ _
  have e2 : grabTo ')' (X ++ (").get(".toList ++ (Y ++ ")".toList))) =
      some (X, ".get(".toList ++ (Y ++ ")".toList)) :=
    grabTo_append hXq (".get(".toList ++ (Y ++ ")".toList))
  have e3 : peel ".get(".toList (".get(".toList ++ (Y ++ ")".toList)) =
      some (Y ++ ")".toList) := peel_self_append _ _
  have e4 : grabTo ')' (Y ++ ")".toList) = some (Y, []) := grabTo_append hYq []
  simp only [matchGet, e1, e2, e3, e4, if_neg hXne]

/-- Rule 5 fires on `const s = db.prepare(X); s.run(Y)` for a non-empty
word-character identifier `s`, parenthesis-free non-empty `X` and
parenthesis-free `Y`, consuming the whole text and dropping the binding. -/
theorem matchRun1_fire (s X Y : List Char) (hsne : s ≠ [])
    (hsw : ∀ c ∈ s, isWordChar c = true)
    (hXne : ¬ X = []) (hXq : ')' ∉ X) (hYq : ')' ∉ Y) :
    matchRun1 ("const ".toList ++ (s ++ (" = db.prepare(".toList ++
        (X ++ ("); ".toList ++ (s ++ (".run(".toList ++ (Y ++ ")".toList)))))))) =
      some ("await db.run(".toList ++ X ++ ", [".toList ++ Y ++ "])".toList, []) := by
  have e1 : peel "const".toList ("const ".toList ++ (s ++ (" = db.prepare(".toList ++
      (X ++ ("); ".toList ++ (s ++ (".run(".toList ++ (Y ++ ")".toList)))))))) =
      some (' ' :: (s ++ (" = db.prepare(".toList ++
        (X ++ ("); ".toList ++ (s ++ (".run(".toList ++ (Y ++ ")".toList)))))))) :=
    peel_self_append "const".toList _
  have e2 : (' ' :: (s ++ (" = db.prepare(".toList ++
      (X ++ ("); ".toList ++ (s ++ (".run(".toList ++ (Y ++ ")".toList)))))))).takeWhile
        isPySpace = [' '] := by
    rw [List.takeWhile_cons]
    simp only [show isPySpace ' ' = true from rfl, if_true,
      takeWhile_ws_word_head hsne hsw]
  have e3 : (' ' :: (s ++ (" = db.prepare(".toList ++
      (X ++ ("); ".toList ++ (s ++ (".run(".toList ++ (Y ++ ")".toList)))))))).dropWhile
        isPySpace = s ++ (" = db.prepare(".toList ++
      (X ++ ("); ".toList ++ (s ++ (".run(".toList ++ (Y ++ ")".toList)))))) := by
    rw [List.dropWhile_cons]
    simp only [show isPySpace ' ' = true from rfl, if_true,
      dropWhile_ws_word_head hsne hsw]
  have e4w := takeWhile_word_stop (s := s)
    (z := '=' :: (' ' :: ("db.prepare(".toList ++
      (X ++ ("); ".toList ++ (s ++ (".run(".toList ++ (Y ++ ")".toList)))))))) hsw
    (show isWordChar ' ' = false from rfl)
  have e4 : (s ++ (" = db.prepare(".toList ++
      (X ++ ("); ".toList ++ (s ++ (".run(".toList ++ (Y ++ ")".toList))))))).takeWhile
        isWordChar = s := e4w.1
  have e5 : (s ++ (" = db.prepare(".toList ++
      (X ++ ("); ".toList ++ (s ++ (".run(".toList ++ (Y ++ ")".toList))))))).dropWhile
        isWordChar = ' ' :: ('=' :: (' ' :: ("db.prepare(".toList ++
      (X ++ ("); ".toList ++ (s ++ (".run(".toList ++ (Y ++ ")".toList)))))))) := e4w.2
  have e6 : (' ' :: ('=' :: (' ' :: ("db.prepare(".toList ++
      (X ++ ("); ".toList ++ (s ++ (".run(".toList ++ (Y ++ ")".toList))))))))).dropWhile
        isPySpace = '=' :: (' ' :: ("db.prepare(".toList ++
      (X ++ ("); ".toList ++ (s ++ (".run(".toList ++ (Y ++ ")".toList))))))) := rfl
  have e7 : peel "=".toList ('=' :: (' ' :: ("db.prepare(".toList ++
      (X ++ ("); ".toList ++ (s ++ (".run(".toList ++ (Y ++ ")".toList)))))))) =
      some (' ' :: ("db.prepare(".toList ++
        (X ++ ("); ".toList ++ (s ++ (".run(".toList ++ (Y ++ ")".toList))))))) := rfl
  have e8 : (' ' :: ("db.prepare(".toList ++
      (X ++ ("); ".toList ++ (s ++ (".run(".toList ++ (Y ++ ")".toList))))))).dropWhile
        isPySpace = "db.prepare(".toList ++
      (X ++ ("); ".toList ++ (s ++ (".run(".toList ++ (Y ++ ")".toList))))) := rfl
  have e9 : peel "db.prepare(".toList ("db.prepare(".toList ++
      (X ++ ("); ".toList ++ (s ++ (".run(".toList ++ (Y ++ ")".toList)))))) =
      some (X ++ ("); ".toList ++ (s ++ (".run(".toList ++ (Y ++ ")".toList))))) :=
    peel_self_append _ _
  have e10 : grabTo ')' (X ++ ("); ".toList ++ (s ++ (".run(".toList ++
      (Y ++ ")".toList))))) =
      some (X, ';' :: (' ' :: (s ++ (".run(".toList ++ (Y ++ ")".toList))))) :=
    grabTo_append hXq (';' :: (' ' :: (s ++ (".run(".toList ++ (Y ++ ")".toList)))))
  have e11 : peel ";".toList (';' :: (' ' :: (s ++ (".run(".toList ++
      (Y ++ ")".toList))))) =
      some (' ' :: (s ++ (".run(".toList ++ (Y ++ ")".toList)))) := rfl
  have e12 : (' ' :: (s ++ (".run(".toList ++ (Y ++ ")".toList)))).dropWhile isPySpace =
      s ++ (".run(".toList ++ (Y ++ ")".toList)) := by
    rw [List.dropWhile_cons]
    simp only [show isPySpace ' ' = true from rfl, if_true,
      dropWhile_ws_word_head hsne hsw]
  have e13 : peel s (s ++ (".run(".toList ++ (Y ++ ")".toList))) =
      some (".run(".toList ++ (Y ++ ")".toList)) := peel_self_append _ _
  have e14 : peel ".run(".toList (".run(".toList ++ (Y ++ ")".toList)) =
      some (Y ++ ")".toList) := peel_self_append _ _
  have e15 : grabTo ')' (Y ++ ")".toList) = some (Y, []) := grabTo_append hYq []
  have hsne' : ¬ s = [] := hsne
  simp only [matchRun1, e1, e2, e3, e4, e5, e6, e7, e8, e9, e10, e11, e12, e13, e14,
    e15, if_neg hXne, if_neg hsne',
    show ¬ ([' '] : List Char) = [] from by simp]
  simp

/-! ## No occurrence of the rewritten-call patterns in an `await …` result -/

/-- The shape `A ++ X ++ ", [" ++ Y ++ "])"` of the rewritten calls contains
no occurrence of `p` when `p` occurs in none of the five pieces and cannot
straddle any border. -/
theorem t_form_no_occ {p X Y A : List Char}
    (hX : ¬ Occurs p X) (hY : ¬ Occurs p Y) (hA : ¬ Occurs p A)
    (hAB : ∀ i ∈ List.range p.length, ¬ (1 ≤ i ∧ p.take i <:+ A))
    (hcomma : ∀ i ∈ List.range p.length, ¬ (1 ≤ i ∧ (p.drop i).head? = some ','))
    (hmid : ¬ Occurs p ", [".toList)
    (hmidspan : ∀ i ∈ List.range p.length, ¬ (1 ≤ i ∧ p.take i <:+ ", [".toList))
    (hket : ∀ i ∈ List.range p.length, ¬ (1 ≤ i ∧ (p.drop i).head? = some ']'))
    (hend : ¬ Occurs p "])".toList) :
    ¬ Occurs p (A ++ (X ++ (", [".toList ++ (Y ++ "])".toList)))) := by
  refine not_occurs_append_left hA ?_ hAB
  refine not_occurs_append_head hX ?_ rfl hcomma
  refine not_occurs_append_left hmid ?_ hmidspan
  exact not_occurs_append_head hY hend rfl hket

/-! ## Claim C5: the single-row query rewrite -/

/-- **C5, counterexample.**  The claim fails as universally stated: the
later field-rename pass (rule 7) rewrites a `result.changes` captured inside
`X`, and an empty `X` is rejected by the pattern's `[^)]+`, so
`db.prepare(X).get(Y)` is not always rewritten to `await db.getOne(X, [Y])`
with `X`, `Y` verbatim. -/
theorem c5_counterexample :
    convert_route_to_async "db.prepare(result.changes).get()".toList ≠
        "await db.getOne(result.changes, [])".toList ∧
      convert_route_to_async "db.prepare().get()".toList ≠
        "await db.getOne(, [])".toList := by
  decide

/-- **C5 (amended).**  For every non-empty parenthesis-free `X` and
parenthesis-free `Y`, neither containing an occurrence of `result.changes`,
the rewrite sends `db.prepare(X).get(Y)` to `await db.getOne(X, [Y])` with
`X` and `Y` captured verbatim. -/
theorem c5_amended (X Y : List Char) (hXne : ¬ X = [])
    (hXp : '(' ∉ X) (hXq : ')' ∉ X) (hYp : '(' ∉ Y) (hYq : ')' ∉ Y)
    (hXc : ¬ Occurs "result.changes".toList X)
    (hYc : ¬ Occurs "result.changes".toList Y) :
    convert_route_to_async
        ("db.prepare(".toList ++ X ++ ").get(".toList ++ Y ++ ")".toList) =
      "await db.getOne(".toList ++ X ++ ", [".toList ++ Y ++ "])".toList := by
  have hre : "db.prepare(".toList ++ X ++ ").get(".toList ++ Y ++ ")".toList =
      "db.prepare(".toList ++ (X ++ (").get(".toList ++ (Y ++ ")".toList))) := by
    simp [List.append_assoc]
  rw [hre]
  have hq1 : ')' ∉ "db.prepare(".toList ++ X := by
    intro hmem
    rcases List.mem_append.mp hmem with h | h
    · exact absurd h (by decide)
    · exact hXq h
  have hq2 : ')' ∉ ".get(".toList ++ Y := by
    intro hmem
    rcases List.mem_append.mp hmem with h | h
    · exact absurd h (by decide)
    · exact hYq h
  have harrow : runSub matchArrow
      ("db.prepare(".toList ++ (X ++ (").get(".toList ++ (Y ++ ")".toList)))) =
      "db.prepare(".toList ++ (X ++ (").get(".toList ++ (Y ++ ")".toList))) := by
    refine @arrow_id_of_two_parens _ ("db.prepare(".toList ++ X)
      (".get(".toList ++ Y) (("get(".toList ++ Y) ++ [')']) '.'
      hq1 hq2 ?_ ?_ (by decide) (by decide)
    · simp [List.append_assoc]
    · simp
  have hp1 : '(' ∉ X ++ ')' :: ".get".toList := by
    intro hmem
    rcases List.mem_append.mp hmem with h | h
    · exact hXp h
    · exact absurd h (by decide)
  have hp2 : '(' ∉ Y ++ [')'] := by
    intro hmem
    rcases List.mem_append.mp hmem with h | h
    · exact hYp h
    · exact absurd h (by decide)
  have hfunc : runSub matchFunc
      ("db.prepare(".toList ++ (X ++ (").get(".toList ++ (Y ++ ")".toList)))) =
      "db.prepare(".toList ++ (X ++ (").get(".toList ++ (Y ++ ")".toList))) := by
    refine @func_id_of_two_parens _ ("db.prepare".toList)
      (X ++ ')' :: ".get".toList) (Y ++ [')'])
      (by decide) hp1 hp2 ?_ ?_ ?_
    · simp [List.append_assoc]
    · intro U w hw he
      exact func_pre_ne hw
        (show ("db.prepare".toList).getLast? = some 'e' from by decide)
        (by decide) (by decide) he
    · intro U w hw he
      have hz : "db.prepare".toList ++ '(' :: (X ++ ')' :: ".get".toList) =
          ("db.prepare".toList ++ '(' :: (X ++ [')'])) ++ ".get".toList := by
        simp
      have hv : ("db.prepare".toList ++ '(' :: (X ++ ')' :: ".get".toList)).getLast? =
          some 't' := by
        rw [hz, List.getLast?_append_of_ne_nil _ (by decide)]
        decide
      exact func_pre_ne hw hv (by decide) (by decide) he
  unfold convert_route_to_async
  rw [harrow, hfunc, runSub_match matchGet_consumes (matchGet_fire X Y hXne hXq hYq),
    show runSub matchGet ([] : List Char) = [] from rfl, List.append_nil]
  have hre2 : "await db.getOne(".toList ++ X ++ ", [".toList ++ Y ++ "])".toList =
      "await db.getOne(".toList ++ (X ++ (", [".toList ++ (Y ++ "])".toList))) := by
    simp [List.append_assoc]
  have hno_prep : ¬ Occurs "db.prepare(".toList
      ("await db.getOne(".toList ++ X ++ ", [".toList ++ Y ++ "])".toList) := by
    rw [hre2]
    exact t_form_no_occ
      (not_occurs_of_not_mem (show '(' ∈ "db.prepare(".toList from by decide) hXp)
      (not_occurs_of_not_mem (show '(' ∈ "db.prepare(".toList from by decide) hYp)
      (by decide) (by decide) (by decide) (by decide) (by decide) (by decide) (by decide)
  have hno_changes : ¬ Occurs "result.changes".toList
      ("await db.getOne(".toList ++ X ++ ", [".toList ++ Y ++ "])".toList) := by
    rw [hre2]
    exact t_form_no_occ hXc hYc
      (by decide) (by decide) (by decide) (by decide) (by decide) (by decide) (by decide)
  rw [runSub_id_of_req matchAll_req hno_prep,
    runSub_id_of_req matchRun1_req hno_prep,
    runSub_id_of_req matchRun2_req hno_prep,
    runSub_id_of_req matchChanges_req hno_changes]

/-- Witness for C5 (amended) at `X = 'q'`, `Y = 1`. -/
theorem c5_amended_witness :
    convert_route_to_async
        ("db.prepare(".toList ++ "q".toList ++ ").get(".toList ++
          "1".toList ++ ")".toList) =
      "await db.getOne(".toList ++ "q".toList ++ ", [".toList ++
        "1".toList ++ "])".toList :=
  c5_amended "q".toList "1".toList (by decide) (by decide) (by decide) (by decide)
    (by decide) (by decide) (by decide)

/-- No occurrence of `p` in `const s = db.prepare(X); s.run(Y)` when `p`
occurs in none of the pieces and cannot straddle any border. -/
theorem s6_no_occ {p s X Y : List Char}
    (hs : ¬ Occurs p s) (hX : ¬ Occurs p X) (hY : ¬ Occurs p Y)
    (h1 : ¬ Occurs p "const ".toList)
    (h1s : ∀ i ∈ List.range p.length, ¬ (1 ≤ i ∧ p.take i <:+ "const ".toList))
    (h2 : ∀ i ∈ List.range p.length, ¬ (1 ≤ i ∧ (p.drop i).head? = some ' '))
    (h3 : ¬ Occurs p " = db.prepare(".toList)
    (h3s : ∀ i ∈ List.range p.length, ¬ (1 ≤ i ∧ p.take i <:+ " = db.prepare(".toList))
    (h4 : ∀ i ∈ List.range p.length, ¬ (1 ≤ i ∧ (p.drop i).head? = some ')'))
    (h5 : ¬ Occurs p "); ".toList)
    (h5s : ∀ i ∈ List.range p.length, ¬ (1 ≤ i ∧ p.take i <:+ "); ".toList))
    (h6 : ∀ i ∈ List.range p.length, ¬ (1 ≤ i ∧ (p.drop i).head? = some '.'))
    (h7 : ¬ Occurs p ".run(".toList)
    (h7s : ∀ i ∈ List.range p.length, ¬ (1 ≤ i ∧ p.take i <:+ ".run(".toList))
    (h8 : ¬ Occurs p ")".toList) :
    ¬ Occurs p ("const ".toList ++ (s ++ (" = db.prepare(".toList ++ (X ++
      ("); ".toList ++ (s ++ (".run(".toList ++ (Y ++ ")".toList)))))))) := by
  refine not_occurs_append_left h1 ?_ h1s
  refine not_occurs_append_head hs ?_ rfl h2
  refine not_occurs_append_left h3 ?_ h3s
  refine not_occurs_append_head hX ?_ rfl h4
  refine not_occurs_append_left h5 ?_ h5s
  refine not_occurs_append_head hs ?_ rfl h6
  refine not_occurs_append_left h7 ?_ h7s
  exact not_occurs_append_head hY h8 rfl h4

/-! ## Claim C6: the two-step mutation rewrite -/

/-- **C6, counterexample.**  The claim fails as universally stated: with
`X = result.changes` the later field-rename pass alters the captured
expression, and with the identifier `s = db` the binding name still occurs
in the output text. -/
theorem c6_counterexample :
    convert_route_to_async
        "const s = db.prepare(result.changes); s.run()".toList ≠
        "await db.run(result.changes, [])".toList ∧
      hasSub "db".toList
        (convert_route_to_async
          "const db = db.prepare(q); db.run()".toList) = true := by
  decide

/-- **C6 (amended).**  For every non-empty word-character identifier `s`,
non-empty parenthesis-free `X` and parenthesis-free `Y`, with `X` and `Y`
free of occurrences of `result.changes`, the rewrite collapses
`const s = db.prepare(X); s.run(Y)` to `await db.run(X, [Y])` — the
`const s = …; s.…` binding construct is eliminated (though the identifier
`s` itself may still occur in the output when it also names other text,
e.g. `s = db`). -/
theorem c6_amended (s X Y : List Char) (hsne : s ≠ [])
    (hsw : ∀ c ∈ s, isWordChar c = true)
    (hXne : ¬ X = []) (hXp : '(' ∉ X) (hXq : ')' ∉ X)
    (hYp : '(' ∉ Y) (hYq : ')' ∉ Y)
    (hXc : ¬ Occurs "result.changes".toList X)
    (hYc : ¬ Occurs "result.changes".toList Y) :
    convert_route_to_async
        ("const ".toList ++ s ++ " = db.prepare(".toList ++ X ++
          "); ".toList ++ s ++ ".run(".toList ++ Y ++ ")".toList) =
      "await db.run(".toList ++ X ++ ", [".toList ++ Y ++ "])".toList := by
  have hsq : ')' ∉ s := fun hm => absurd (hsw _ hm) (by decide)
  have hsp : '(' ∉ s := fun hm => absurd (hsw _ hm) (by decide)
  have hsd : '.' ∉ s := fun hm => absurd (hsw _ hm) (by decide)
  have hre : "const ".toList ++ s ++ " = db.prepare(".toList ++ X ++
      "); ".toList ++ s ++ ".run(".toList ++ Y ++ ")".toList =
      "const ".toList ++ (s ++ (" = db.prepare(".toList ++ (X ++
        ("); ".toList ++ (s ++ (".run(".toList ++ (Y ++ ")".toList))))))) := by
    simp [List.append_assoc]
  rw [hre]
  have hq1 : ')' ∉ "const ".toList ++ s ++ " = db.prepare(".toList ++ X := by
    intro hm
    rcases List.mem_append.mp hm with hm | hm
    · rcases List.mem_append.mp hm with hm | hm
      · rcases List.mem_append.mp hm with hm | hm
        · exact absurd hm (by decide)
        · exact hsq hm
      · exact absurd hm (by decide)
    · exact hXq hm
  have hq2 : ')' ∉ "; ".toList ++ s ++ ".run(".toList ++ Y := by
    intro hm
    rcases List.mem_append.mp hm with hm | hm
    · rcases List.mem_append.mp hm with hm | hm
      · rcases List.mem_append.mp hm with hm | hm
        · exact absurd hm (by decide)
        · exact hsq hm
      · exact absurd hm (by decide)
    · exact hYq hm
  have harrow : runSub matchArrow
      ("const ".toList ++ (s ++ (" = db.prepare(".toList ++ (X ++
        ("); ".toList ++ (s ++ (".run(".toList ++ (Y ++ ")".toList)))))))) =
      "const ".toList ++ (s ++ (" = db.prepare(".toList ++ (X ++
        ("); ".toList ++ (s ++ (".run(".toList ++ (Y ++ ")".toList))))))) := by
    refine @arrow_id_of_two_parens _
      ("const ".toList ++ s ++ " = db.prepare(".toList ++ X)
      ("; ".toList ++ s ++ ".run(".toList ++ Y)
      ((' ' :: (s ++ (".run(".toList ++ Y))) ++ [')']) ';'
      hq1 hq2 ?_ ?_ (by decide) (by decide)
    · simp [List.append_assoc]
    · simp
  have hp1 : '(' ∉ "const ".toList ++ s ++ " = db.prepare".toList := by
    intro hm
    rcases List.mem_append.mp hm with hm | hm
    · rcases List.mem_append.mp hm with hm | hm
      · exact absurd hm (by decide)
      · exact hsp hm
    · exact absurd hm (by decide)
  have hp2 : '(' ∉ X ++ "); ".toList ++ s ++ ".run".toList := by
    intro hm
    rcases List.mem_append.mp hm with hm | hm
    · rcases List.mem_append.mp hm with hm | hm
      · rcases List.mem_append.mp hm with hm | hm
        · exact hXp hm
        · exact absurd hm (by decide)
      · exact hsp hm
    · exact absurd hm (by decide)
  have hp3 : '(' ∉ Y ++ [')'] := by
    intro hm
    rcases List.mem_append.mp hm with hm | hm
    · exact hYp hm
    · exact absurd hm (by decide)
  have hv1last : ("const ".toList ++ s ++ " = db.prepare".toList).getLast? =
      some 'e' := by
    rw [List.getLast?_append_of_ne_nil _ (by decide)]
    decide
  have hfunc : runSub matchFunc
      ("const ".toList ++ (s ++ (" = db.prepare(".toList ++ (X ++
        ("); ".toList ++ (s ++ (".run(".toList ++ (Y ++ ")".toList)))))))) =
      "const ".toList ++ (s ++ (" = db.prepare(".toList ++ (X ++
        ("); ".toList ++ (s ++ (".run(".toList ++ (Y ++ ")".toList))))))) := by
    refine @func_id_of_two_parens _
      ("const ".toList ++ s ++ " = db.prepare".toList)
      (X ++ "); ".toList ++ s ++ ".run".toList) (Y ++ [')'])
      hp1 hp2 hp3 ?_ ?_ ?_
    · simp [List.append_assoc]
    · intro U w hw he
      exact func_pre_ne hw hv1last (by decide) (by decide) he
    · intro U w hw he
      have hrun : ".run".toList <:+
          ("const ".toList ++ s ++ " = db.prepare".toList) ++
            '(' :: (X ++ "); ".toList ++ s ++ ".run".toList) := by
        refine ⟨("const ".toList ++ s ++ " = db.prepare".toList) ++
          '(' :: (X ++ "); ".toList ++ s), ?_⟩
        simp [List.append_assoc]
      exact func_pre_run hw hrun he
  have hget : ¬ Occurs ".get(".toList
      ("const ".toList ++ (s ++ (" = db.prepare(".toList ++ (X ++
        ("); ".toList ++ (s ++ (".run(".toList ++ (Y ++ ")".toList)))))))) :=
    s6_no_occ
      (not_occurs_of_not_mem (show '.' ∈ ".get(".toList from by decide) hsd)
      (not_occurs_of_not_mem (show '(' ∈ ".get(".toList from by decide) hXp)
      (not_occurs_of_not_mem (show '(' ∈ ".get(".toList from by decide) hYp)
      (by decide) (by decide) (by decide) (by decide) (by decide) (by decide)
      (by decide) (by decide) (by decide) (by decide) (by decide) (by decide)
  have hall : ¬ Occurs ".all(".toList
      ("const ".toList ++ (s ++ (" = db.prepare(".toList ++ (X ++
        ("); ".toList ++ (s ++ (".run(".toList ++ (Y ++ ")".toList)))))))) :=
    s6_no_occ
      (not_occurs_of_not_mem (show '.' ∈ ".all(".toList from by decide) hsd)
      (not_occurs_of_not_mem (show '(' ∈ ".all(".toList from by decide) hXp)
      (not_occurs_of_not_mem (show '(' ∈ ".all(".toList from by decide) hYp)
      (by decide) (by decide) (by decide) (by decide) (by decide) (by decide)
      (by decide) (by decide) (by decide) (by decide) (by decide) (by decide)
  unfold convert_route_to_async
  rw [harrow, hfunc, runSub_id_of_req matchGet_req' hget,
    runSub_id_of_req matchAll_req' hall,
    runSub_match matchRun1_consumes (matchRun1_fire s X Y hsne hsw hXne hXq hYq),
    show runSub matchRun1 ([] : List Char) = [] from rfl, List.append_nil]
  have hre2 : "await db.run(".toList ++ X ++ ", [".toList ++ Y ++ "])".toList =
      "await db.run(".toList ++ (X ++ (", [".toList ++ (Y ++ "])".toList))) := by
    simp [List.append_assoc]
  have hno_prep : ¬ Occurs "db.prepare(".toList
      ("await db.run(".toList ++ X ++ ", [".toList ++ Y ++ "])".toList) := by
    rw [hre2]
    exact t_form_no_occ
      (not_occurs_of_not_mem (show '(' ∈ "db.prepare(".toList from by decide) hXp)
      (not_occurs_of_not_mem (show '(' ∈ "db.prepare(".toList from by decide) hYp)
      (by decide) (by decide) (by decide) (by decide) (by decide) (by decide) (by decide)
  have hno_changes : ¬ Occurs "result.changes".toList
      ("await db.run(".toList ++ X ++ ", [".toList ++ Y ++ "])".toList) := by
    rw [hre2]
    exact t_form_no_occ hXc hYc
      (by decide) (by decide) (by decide) (by decide) (by decide) (by decide) (by decide)
  rw [runSub_id_of_req matchRun2_req hno_prep,
    runSub_id_of_req matchChanges_req hno_changes]

/-- Witness for C6 (amended) at `s = st`, `X = q`, `Y = 1`. -/
theorem c6_amended_witness :
    convert_route_to_async
        ("const ".toList ++ "st".toList ++ " = db.prepare(".toList ++
          "q".toList ++ "); ".toList ++ "st".toList ++ ".run(".toList ++
          "1".toList ++ ")".toList) =
      "await db.run(".toList ++ "q".toList ++ ", [".toList ++
        "1".toList ++ "])".toList :=
  c6_amended "st".toList "q".toList "1".toList (by decide) (by decide) (by decide)
    (by decide) (by decide) (by decide) (by decide) (by decide) (by decide)

/-! ## Claim C1: the progress reporter on a family of synthetic files -/

/-- One synthetic route-declaration line; `b` says whether the handler
already carries the `async ` marker. -/
def mkLine (b : Bool) : List Char :=
  "app.get('/x', ".toList ++ (if b then "async ".toList else []) ++
    "(req, res) => go())\n".toList

/-- A file made of such lines. -/
def mkFile : List Bool → List Char
  | [] => []
  | b :: bs => mkLine b ++ mkFile bs

/-- How many lines carry the marker. -/
def nTrue : List Bool → Nat
  | [] => 0
  | b :: bs => (if b then 1 else 0) + nTrue bs

/-- The one-route scenario file of the claim. -/
def scenarioText : List Char :=
  "app.get('/x', (req, res) => \x7b db.prepare('SELECT 1').get() \x7d)".toList

/-- The route pattern can only match at an `a`. -/
theorem matchRoute_head_ne {tgt : List Char} {c : Char} {cs : List Char}
    (hc : ¬ c = 'a') : matchRoute tgt (c :: cs) = none := by
  have h' : ('a' = c) = False := by
    simp only [eq_iff_iff, iff_false]
    exact fun h => hc h.symm
  have hs : stripHdr (c :: cs) = none := by
    simp only [stripHdr]
    rw [show ("app.get(".toList) = 'a' :: "pp.get(".toList from rfl,
      show ("app.post(".toList) = 'a' :: "pp.post(".toList from rfl,
      show ("app.put(".toList) = 'a' :: "pp.put(".toList from rfl,
      show ("app.delete(".toList) = 'a' :: "pp.delete(".toList from rfl]
    simp only [peel, h', if_false]
  simp only [matchRoute, hs]

/-- Scanning a stretch of text with no `a` finds no route match. -/
theorem cnt_skip {tgt : List Char} : ∀ (u : List Char) {v : List Char},
    (∀ c ∈ u, ¬ c = 'a') →
    countMatches (matchRoute tgt) (u ++ v) = countMatches (matchRoute tgt) v := by
  intro u
  induction u with
  | nil => intro v _; rfl
  | cons c u' ih =>
    intro v hu
    rw [List.cons_append, cnt_cons_none (matchRoute_head_ne (hu c (by simp))),
      ih (fun d hd => hu d (by simp [hd]))]

theorem matchRoute_all_line_true (rest : List Char) :
    matchRoute tgtAllRoutes (mkLine true ++ rest) =
      some (") => go())\n".toList ++ rest) := rfl

theorem matchRoute_all_line_false (rest : List Char) :
    matchRoute tgtAllRoutes (mkLine false ++ rest) =
      some (") => go())\n".toList ++ rest) := rfl

theorem matchRoute_async_line_true (rest : List Char) :
    matchRoute tgtAsyncRoutes (mkLine true ++ rest) =
      some (") => go())\n".toList ++ rest) := rfl

theorem matchRoute_async_line_false (rest : List Char) :
    matchRoute tgtAsyncRoutes
      ('a' :: ("pp.get('/x', (req, res) => go())\n".toList ++ rest)) = none := rfl

theorem count_all_line (b : Bool) (rest : List Char) :
    countMatches (matchRoute tgtAllRoutes) (mkLine b ++ rest) =
      countMatches (matchRoute tgtAllRoutes) rest + 1 := by
  cases b
  · rw [cnt_match (matchRoute_consumes1 _) (matchRoute_all_line_false rest),
      cnt_skip ") => go())\n".toList (by decide)]
  · rw [cnt_match (matchRoute_consumes1 _) (matchRoute_all_line_true rest),
      cnt_skip ") => go())\n".toList (by decide)]

theorem count_async_line (b : Bool) (rest : List Char) :
    countMatches (matchRoute tgtAsyncRoutes) (mkLine b ++ rest) =
      countMatches (matchRoute tgtAsyncRoutes) rest + (if b then 1 else 0) := by
  cases b
  · rw [show mkLine false ++ rest =
      'a' :: ("pp.get('/x', (req, res) => go())\n".toList ++ rest) from rfl,
      cnt_cons_none (matchRoute_async_line_false rest),
      cnt_skip "pp.get('/x', (req, res) => go())\n".toList (by decide)]
    simp
  · rw [cnt_match (matchRoute_consumes1 _) (matchRoute_async_line_true rest),
      cnt_skip ") => go())\n".toList (by decide)]
    simp

theorem mkFile_all : ∀ bs : List Bool,
    countMatches (matchRoute tgtAllRoutes) (mkFile bs) = bs.length := by
  intro bs
  induction bs with
  | nil => rfl
  | cons b bs ih =>
    show countMatches (matchRoute tgtAllRoutes) (mkLine b ++ mkFile bs) = _
    rw [count_all_line, ih, List.length_cons]

theorem mkFile_async : ∀ bs : List Bool,
    countMatches (matchRoute tgtAsyncRoutes) (mkFile bs) = nTrue bs := by
  intro bs
  induction bs with
  | nil => rfl
  | cons b bs ih =>
    show countMatches (matchRoute tgtAsyncRoutes) (mkLine b ++ mkFile bs) = _
    rw [count_async_line, ih, nTrue]
    omega

/-- **C1.**  On a file of `bs.length` synthetic route declarations of which
`nTrue bs` carry the `async ` marker, the reporter counts
`total = bs.length` and `converted = nTrue bs` and (the file being
non-empty) reports `remaining = total - converted` and
`percentage = converted * 100 / total` by floor division; and the claim's
one-route scenario file reports total 1, converted 0, remaining 1,
percentage 0. -/
theorem c1_reporter (bs : List Bool) (hne : bs ≠ []) :
    allRoutesCount (mkFile bs) = bs.length ∧
      asyncRoutesCount (mkFile bs) = nTrue bs ∧
      runMain (some (mkFile bs)) =
        RunResult.report bs.length (nTrue bs)
          ((bs.length : Int) - (nTrue bs : Int)) (nTrue bs * 100 / bs.length) ∧
      runMain (some scenarioText) = RunResult.report 1 0 1 0 := by
  have htot : allRoutesCount (mkFile bs) = bs.length := mkFile_all bs
  have hasy : asyncRoutesCount (mkFile bs) = nTrue bs := mkFile_async bs
  refine ⟨htot, hasy, ?_, by decide⟩
  have hz : ¬ bs.length = 0 := by
    cases bs with
    | nil => exact absurd rfl hne
    | cons b bs => simp
  simp only [runMain, runMainWith, htot, hasy, if_neg hz]

/-- Witness for C1 at the two-line file `[true, false]`. -/
theorem c1_witness :
    allRoutesCount (mkFile [true, false]) = 2 ∧
      asyncRoutesCount (mkFile [true, false]) = 1 ∧
      runMain (some (mkFile [true, false])) = RunResult.report 2 1 1 50 ∧
      runMain (some scenarioText) = RunResult.report 1 0 1 0 := by
  have h := c1_reporter [true, false] (by decide)
  exact ⟨h.1.trans (by decide), h.2.1.trans (by decide),
    h.2.2.1.trans (by decide), h.2.2.2⟩

end GSC